import Mathlib

/-!
Verification of the `noted` note-taking tool: a shallow embedding of the
markdown codec (`noted/notes.py`), the index-store adapter (`noted/db.py`),
the synchronization engine (`noted/searches.py`) and the debounce watcher
(`noted/watcher.py`), together with proofs and refutations of the
specified properties.

Python strings are modelled as `List Char` (`Str`).  `datetime` values are
modelled as integers (comparison and equality are all the code uses).
Whitespace is modelled as the six ASCII whitespace characters stripped by
Python's `str.strip`; the embedding is faithful for ASCII text.
-/

namespace Noted

/-- Python strings, modelled as lists of characters. -/
abbrev Str := List Char

/-- Convenience: the character list of a string literal. -/
def str (s : String) : Str := s.toList

/-- The six ASCII whitespace characters removed by Python's `str.strip()`. -/
def pySpace (c : Char) : Bool :=
  c == ' ' || c == '\t' || c == '\n' || c == '\r' || c == '\x0b' || c == '\x0c'

/-- Python `s.strip()`: remove leading and trailing whitespace. -/
def trimS (s : Str) : Str :=
  ((s.dropWhile pySpace).reverse.dropWhile pySpace).reverse

/-- Python `s.split(sep)` for a single-character separator: splits on every
occurrence; the empty string yields `[[]]`. -/
def splitOnC (sep : Char) : Str → List Str
  | [] => [[]]
  | c :: cs =>
    match splitOnC sep cs with
    | [] => [[]]
    | h :: t => if c = sep then [] :: h :: t else (c :: h) :: t

/-- Python `sep.join(parts)`. -/
def joinWith (sep : Str) : List Str → Str
  | [] => []
  | [x] => x
  | x :: y :: t => x ++ sep ++ joinWith sep (y :: t)

/-- `"\n".join`. -/
def joinNl (parts : List Str) : Str := joinWith ['\n'] parts

/-- The scanning loop of Python `s.replace(pat, rep)`: left-to-right,
non-overlapping replacement.  After a match the scan resumes past the
matched occurrence.  The extra `Nat` argument is structural fuel (the
remaining string only ever shrinks, so `length s` fuel always suffices);
it keeps the function kernel-computable. -/
def replaceFuel (pat rep : Str) : Nat → Str → Str
  | _, [] => []
  | 0, s => s
  | fuel + 1, c :: cs =>
    if pat ≠ [] ∧ pat.isPrefixOf (c :: cs) then
      rep ++ replaceFuel pat rep fuel (cs.drop (pat.length - 1))
    else
      c :: replaceFuel pat rep fuel cs

/-- Python `s.replace(pat, rep)` for a non-empty pattern. -/
def replaceL (pat rep s : Str) : Str := replaceFuel pat rep s.length s

/-- Python `pathlib.PurePath.name`: the final path component (POSIX rules). -/
def basename (s : Str) : Str := (splitOnC '/' s).getLastD []

/-- Python `pathlib.PurePath.stem`: the final component without its suffix.
The suffix is `name[i:]` where `i` is the index of the last dot, provided
`0 < i < len(name) - 1`. -/
def path_stem (path : Str) : Str :=
  let name := basename path
  match (name.reverse.findIdx? (· = '.')) with
  | some rj =>
    let i := name.length - 1 - rj
    if 0 < i ∧ i < name.length - 1 then name.take i else name
  | none => name

/-- Python `str.isnumeric()`, restricted to ASCII digits (the only numeric
characters appearing in note filenames). -/
def isnumericS (s : Str) : Bool := !s.isEmpty && s.all Char.isDigit

/-- ASCII lowering, modelling Python `str.lower()` on ASCII text. -/
def asciiLower (s : Str) : Str := s.map Char.toLower

/-- SQLite `LIKE` pattern matching (`%` = any sequence, `_` = any single
character); SQLite's default `LIKE` is case-insensitive for ASCII, so the
callers pass lowered strings. -/
def likeM : Str → Str → Bool
  | [], [] => true
  | [], _ :: _ => false
  | '%' :: ps, s =>
    likeM ps s ||
      (match s with
       | [] => false
       | _ :: t => likeM ('%' :: ps) t)
  | '_' :: ps, s =>
    (match s with
     | [] => false
     | _ :: t => likeM ps t)
  | p :: ps, s =>
    (match s with
     | [] => false
     | c :: t => p == c && likeM ps t)
termination_by pat s => (s.length, pat.length)

/-- Case-insensitive `LIKE`, as SQLite applies it to ASCII text. -/
def likeCI (pat s : Str) : Bool := likeM (asciiLower pat) (asciiLower s)

/-!
## The document model and markdown codec (`noted/notes.py`)
-/

/-- `notes.Section`: one section of a note.  The constructor strips the
data of leading and trailing blanks (`Section.__init__` calls
`data.strip()`), so `Section` values are built through `mkSection`. -/
structure Section where
  header : Str
  data : Str
deriving Repr, DecidableEq

/-- `Section(header, data)`: the Python constructor, which strips `data`. -/
def mkSection (header data : Str) : Section := ⟨header, trimS data⟩

/-- `Section.to_markdown`. -/
def Section.to_markdown (s : Section) : Str :=
  str "## " ++ s.header ++ str "\n\n" ++ trimS s.data

/-- `notes.Note`: the in-memory note.  `sections` models the Python
insertion-ordered `dict[str, Section]`; `body_` models the private
`_body` attribute written by the `body` setter.  The source constructor
fills `filename`/`date` from the current date when no filename is given
(ambient I/O); no verified claim depends on those fields, and the decoder
leaves them at their model defaults. -/
structure Note where
  page_header : Str
  filename : Str
  date : Str
  keywords : List Str
  present : List Str
  speakers : List Str
  timestamp : Int
  sections : List (Str × Section)
  body_ : Str
deriving Repr, DecidableEq

/-- Python `dict` assignment `d[k] = v`: update in place if the key is
present (keeping its position), otherwise append. -/
def dictInsert (m : List (Str × Section)) (k : Str) (v : Section) :
    List (Str × Section) :=
  if m.any (fun p => p.1 == k) then
    m.map (fun p => if p.1 == k then (k, v) else p)
  else
    m ++ [(k, v)]

/-- `Note("")` as produced at the top of `create_note_from_markdown`. -/
def emptyNote : Note :=
  { page_header := []
    filename := []
    date := []
    keywords := []
    present := []
    speakers := []
    timestamp := 0
    sections := []
    body_ := [] }

/-- `Note.to_markdown`: emit the H1 line, one metadata line per non-empty
tag list (keywords, present, speakers, joined by `", "`), a blank line,
then each section followed by a blank line, all joined with newlines. -/
def Note.to_markdown (n : Note) : Str :=
  joinNl
    ([str "# " ++ n.page_header ++ ['\n']]
      ++ (if n.keywords.length > 0 then
            [str "<? keywords: " ++ joinWith (str ", ") n.keywords ++ str " ?>"]
          else [])
      ++ (if n.present.length > 0 then
            [str "<? present: " ++ joinWith (str ", ") n.present ++ str " ?>"]
          else [])
      ++ (if n.speakers.length > 0 then
            [str "<? speakers: " ++ joinWith (str ", ") n.speakers ++ str " ?>"]
          else [])
      ++ [[]]
      ++ n.sections.flatMap (fun p => [p.2.to_markdown, []]))

/-- The `body` property getter: `return self.to_markdown()` (it does not
read the `_body` attribute that the setter writes). -/
def Note.body (n : Note) : Str := n.to_markdown

/-- `extract_match`: clean a regex group —
`match.group(1).strip().replace(";", ",").replace(", ", ",").split(",")`. -/
def extract_match (s : Str) : List Str :=
  splitOnC ',' (replaceL (str ", ") [','] (replaceL [';'] [','] (trimS s)))

/-- Search for the *rightmost* occurrence of `word ++ ":"` (or, when
`plural` is set, `word ++ "s:"`) inside `s` and return the remainder after
the colon.  This is the effect of the greedy `.*keywords?:` in the
patterns `^<\?.*keywords?:(.*)\?>$`: the backtracking `.*` makes the tag
word match at its last possible position. -/
def findTagRest (word : Str) (plural : Bool) : Str → Option Str
  | [] => none
  | c :: cs =>
    match findTagRest word plural cs with
    | some r => some r
    | none =>
      if (word ++ [':']).isPrefixOf (c :: cs) then
        some ((c :: cs).drop (word.length + 1))
      else if plural && (word ++ ['s', ':']).isPrefixOf (c :: cs) then
        some ((c :: cs).drop (word.length + 2))
      else none

/-- One metadata pattern `^<\?.*word(s?):(.*)\?>$` applied to a line (the
line holds no newline, so `.` never blocks): the line must start with
`<?` and end with `?>`; the group is everything between the rightmost
occurrence of the tag word and the final `?>`, fed to `extract_match`. -/
def matchMeta (word : Str) (plural : Bool) (line : Str) : Option (List Str) :=
  if (str "<?").isPrefixOf line ∧ (str "?>").isSuffixOf line then
    (findTagRest word plural (line.drop 2)).map
      (fun r => extract_match (r.take (r.length - 2)))
  else none

/-- `parse_metadata` inside `create_note_from_markdown`: try the keyword
pattern, then the speaker pattern, then the present pattern, extending
the matching tag list.  Note `present` has no plural form in its regex. -/
def parse_metadata (temp : Note) (data_line : Str) : Note :=
  match matchMeta (str "keyword") true data_line with
  | some ks => { temp with keywords := temp.keywords ++ ks }
  | none =>
    match matchMeta (str "speaker") true data_line with
    | some ss => { temp with speakers := temp.speakers ++ ss }
    | none =>
      match matchMeta (str "present") false data_line with
      | some ps => { temp with present := temp.present ++ ps }
      | none => temp

/-- The loop state of `create_note_from_markdown`'s single pass. -/
structure DecSt where
  note : Note
  in_section : Bool
  data : List Str
  section_header : Str
  body_lines : List Str
deriving Repr, DecidableEq

/-- One iteration of the decoding loop (`for this_line in lines`). -/
def decodeLine (st : DecSt) (this_line : Str) : DecSt :=
  let line := trimS this_line
  let st' :=
    if (str "# ").isPrefixOf line then
      { st with note := { st.note with page_header := line.drop 2 } }
    else if (str "<?").isPrefixOf line then
      { st with note := parse_metadata st.note line }
    else if (str "## ").isPrefixOf line then
      if st.in_section then
        { st with
          note := { st.note with
            sections := dictInsert st.note.sections st.section_header
              (mkSection st.section_header (joinNl st.data)) }
          section_header := trimS (line.drop 2)
          data := [] }
      else
        { st with
          in_section := true
          section_header := trimS (line.drop 2)
          data := [] }
    else if st.in_section then
      { st with data := st.data ++ [line] }
    else st
  { st' with body_lines := st'.body_lines ++ [line] }

/-- The state at the top of `create_note_from_markdown`. -/
def initDecSt : DecSt :=
  { note := emptyNote
    in_section := false
    data := []
    section_header := []
    body_lines := [] }

/-- The clean-up after the loop: flush the last open section (when
`section_header` is non-empty) and store the accumulated body through the
`body` setter (which writes the `_body` attribute). -/
def finishNote (st : DecSt) : Note :=
  let n1 :=
    if st.section_header ≠ [] then
      { st.note with
        sections := dictInsert st.note.sections st.section_header
          (mkSection st.section_header (joinNl st.data)) }
    else st.note
  { n1 with body_ := joinNl st.body_lines }

/-- `Note.create_note_from_markdown`: the decoder. -/
def create_note_from_markdown (markdown : Str) : Note :=
  finishNote ((splitOnC '\n' markdown).foldl decodeLine initDecSt)

/-!
## The filename metadata heuristic (`Note.extract_metadata_from_file_path`)
-/

/-- The keyword list computed by `extract_metadata_from_file_path`: split
the stem on `-` (or on spaces when it has no `-`); the first token joins
the date accumulator if numeric, else the keyword list; remaining numeric
tokens concatenate into one date string, the rest join (space-separated)
into one further keyword.  The date string is appended unconditionally,
the joined remainder only when non-empty.  (The `timestamp` field of the
returned `Metadata` is the file's mtime; callers pass it separately.) -/
def extract_metadata_keywords (path : Str) : List Str :=
  let name := path_stem path
  let items := if name.contains '-' then splitOnC '-' name else splitOnC ' ' name
  match items with
  | [] => []
  | first :: rest =>
    let kwFirst := if isnumericS first then [] else [first]
    let dd0 : List Str := if isnumericS first then [first] else []
    let acc := rest.foldl
      (fun (acc : List Str × List Str) item =>
        if isnumericS item then (acc.1 ++ [item], acc.2)
        else (acc.1, acc.2 ++ [item]))
      (dd0, [])
    let file_date := trimS acc.1.flatten
    let last := trimS (joinWith [' '] acc.2)
    kwFirst ++ [file_date] ++ (if last ≠ [] then [last] else [])

/-!
## The index store adapter (`noted/db.py`)

SQLite with auto-increment integer primary keys is modelled as lists of
rows; `INSERT` appends, a plain `SELECT` returns rows in rowid (insertion)
order, and the next primary key of an append-only table is `length + 1`.
-/

/-- A row of the `notes` table: `(id, filename, timestamp, body)`. -/
structure NoteRow where
  id : Nat
  filename : Str
  timestamp : Int
  body : Str
deriving Repr, DecidableEq

/-- A row of a tag table (`keywords` / `present` / `speakers`):
`(id, name, note_id)`. -/
structure MetaRow where
  id : Nat
  name : Str
  note_id : Nat
deriving Repr, DecidableEq

/-- The database state: the `notes` table plus the three tag tables. -/
structure DBState where
  notes : List NoteRow
  keywords : List MetaRow
  present : List MetaRow
  speakers : List MetaRow
deriving Repr, DecidableEq

/-- The empty database produced by `connect_to_database` on a fresh file. -/
def emptyDB : DBState := ⟨[], [], [], []⟩

/-- `db.already_stored`: is there a row with this filename and timestamp?
(`noted/database.py` has the same check inlined in its `add_note`; the
watcher imports this predicate from there.) -/
def already_stored (db : DBState) (filename : Str) (timestamp : Int) : Bool :=
  db.notes.any (fun r => r.filename == filename && r.timestamp == timestamp)

/-- `db.insert_metadata` on one tag table: if a row with this `(name,
note_id)` pair exists reuse its id, else insert a new row. -/
def insert_metadata (tbl : List MetaRow) (data : Str) (note_id : Nat) :
    List MetaRow × Nat :=
  match tbl.find? (fun r => r.name == data && r.note_id == note_id) with
  | some row => (tbl, row.id)
  | none => (tbl ++ [⟨tbl.length + 1, data, note_id⟩], tbl.length + 1)

/-- `db.add_note`: raise `OverwriteAttemptError` when `(filename,
timestamp)` is already stored (modelled as result `none`, with the state
returned unchanged since the exception aborts the transaction before any
insert); otherwise insert the note row and one row per tag value.  On
success the result carries the new note id. -/
def add_note (db : DBState) (a_note : Note) : DBState × Option Nat :=
  if already_stored db a_note.filename a_note.timestamp then
    (db, none)
  else
    let note_id := db.notes.length + 1
    let kws := a_note.keywords.foldl
      (fun t kw => (insert_metadata t kw note_id).1) db.keywords
    let prs := a_note.present.foldl
      (fun t pr => (insert_metadata t pr note_id).1) db.present
    let sps := a_note.speakers.foldl
      (fun t sp => (insert_metadata t sp note_id).1) db.speakers
    ({ notes := db.notes ++
        [⟨note_id, a_note.filename, a_note.timestamp, a_note.to_markdown⟩]
       keywords := kws
       present := prs
       speakers := sps }, some note_id)

/-- `db.create_note_from_row`: decode the stored body, then overwrite the
filename and timestamp from the row. -/
def create_note_from_row (row : NoteRow) : Note :=
  { create_note_from_markdown row.body with
    filename := row.filename
    timestamp := row.timestamp }

/-- `db.find_all_notes`: `SELECT * FROM notes` (no ORDER BY — rows come
back in rowid order) converted row by row. -/
def find_all_notes (db : DBState) : List Note :=
  db.notes.map create_note_from_row

/-- The stem normalization at the top of `db.search_by_file`:
`Path(stem).name`, then, when the name contains a dot at index `pos > 0`,
`filename[:-pos]` (dropping the last `pos` characters). -/
def normalize_file_stem (filename_stem : Str) : Str :=
  let filename := basename filename_stem
  match filename.findIdx? (· = '.') with
  | some pos => if pos > 0 then filename.take (filename.length - pos) else filename
  | none => filename

/-- `db.search_by_file`: rows whose filename matches
`LIKE %stem%` (no ORDER BY). -/
def search_by_file (db : DBState) (filename_stem : Str) : List Note :=
  let filename := normalize_file_stem filename_stem
  (db.notes.filter
      (fun r => likeCI (['%'] ++ filename ++ ['%']) r.filename)).map
    create_note_from_row

/-- `db.search_by_keyword`: `SELECT * FROM notes WHERE notes.id IN
(SELECT keywords.note_id FROM keywords JOIN notes ON keywords.name
<op> :data)` where `<op>` is `=` for an exact match and `LIKE` with the
pattern `keyword%` otherwise (the `keyword.replace("*", "")` in the
source discards its result).  No ORDER BY. -/
def search_by_keyword (db : DBState) (keyword : Str) (exact_match : Bool) :
    List Note :=
  (db.notes.filter
      (fun r => db.keywords.any
        (fun k => k.note_id == r.id &&
          (if exact_match then k.name == keyword
           else likeCI (keyword ++ ['%']) k.name)))).map
    create_note_from_row

/-!
## The synchronization engine (`noted/searches.py`)

A directory state is a list of entries; `name` is the entry's final path
component (the scan's `glob` is non-recursive and all of `excluded`,
`needs_updating` and `process_file` go through `file_path.name`), `mtime`
its modification time and `content` the file text.  File reads are total
in the model (every listed entry is readable); the `IOError` abort path
of `process_files` is therefore not exercised.
-/

/-- One directory entry. -/
structure FileEntry where
  name : Str
  mtime : Int
  content : Str
deriving Repr, DecidableEq

/-- Lookup in the dict built by `{row[0]: row[1] for row in result}`:
the *last* row with the key wins. -/
def tableLookup (rows : List (Str × Int)) (k : Str) : Option Int :=
  (rows.reverse.find? (fun p => p.1 == k)).map (fun p => p.2)

/-- `searches.needs_updating`: true when the file is absent from the
table or its on-disk mtime is strictly newer than the stored timestamp. -/
def needs_updating (timestamp_table : List (Str × Int)) (f : FileEntry) : Bool :=
  match tableLookup timestamp_table (basename f.name) with
  | some ts0 => f.mtime > ts0
  | none => true

/-- `Note.load_file`: decode the file content, merge in the
filename-derived keywords (each appended only when non-empty and not
already present), and set the timestamp to the file's mtime. -/
def load_file (f : FileEntry) : Note :=
  let meta_kws := extract_metadata_keywords f.name
  let note := create_note_from_markdown f.content
  let kws := meta_kws.foldl
    (fun acc kw => if kw ≠ [] ∧ ¬ acc.contains kw then acc ++ [kw] else acc)
    note.keywords
  { note with keywords := kws, timestamp := f.mtime }

/-- The note built inside `searches.process_file`: load the file,
re-decode its `body` accessor (which re-encodes), then set the filename
from the path and the timestamp from the loaded metadata (the mtime). -/
def scanNote (f : FileEntry) : Note :=
  let data := load_file f
  let note := create_note_from_markdown data.body
  { note with filename := basename f.name, timestamp := data.timestamp }

/-- `searches.process_file`: build the note and `add_note` it, swallowing
`OverwriteAttemptError` (so the state returned by `add_note` — unchanged
on the error — is kept in every case). -/
def process_file (db : DBState) (f : FileEntry) : DBState :=
  (add_note db (scanNote f)).1

/-- `searches.excluded`: does the file's name start with one of the
excluded stems? -/
def excluded (a_file : FileEntry) (excluded_files : List Str) : Bool :=
  excluded_files.any (fun stem => stem.isPrefixOf (basename a_file.name))

/-- The body of the scan's `for the_file in files` loop: skip excluded
files and files that need no update; otherwise process the file and count
it (the count is incremented even when `process_file` swallowed an
`OverwriteAttemptError`). -/
def scanStep (exclude_files : List Str) (timestamp_table : List (Str × Int))
    (acc : DBState × Nat) (f : FileEntry) : DBState × Nat :=
  if ¬ excluded f exclude_files ∧ needs_updating timestamp_table f then
    (process_file acc.1 f, acc.2 + 1)
  else acc

/-- `searches.process_files` (the scan): read the `(filename, timestamp)`
table once, enumerate `*.md` entries (pathlib's glob does not exclude
dot-files), and process every non-excluded entry that needs updating,
counting each processed file.  Returns the new database state, the result
code (0 = success; the model's reads are total so the `IOError` abort
returning 1 is not exercised) and the update count. -/
def process_files (db : DBState) (files : List FileEntry)
    (exclude_files : List Str) : DBState × Nat × Nat :=
  let timestamp_table := db.notes.map (fun r => (r.filename, r.timestamp))
  let md_files := files.filter (fun f => (str ".md").isSuffixOf (basename f.name))
  let out := md_files.foldl (scanStep exclude_files timestamp_table) (db, 0)
  (out.1, 0, out.2)

/-- The coercion at the top of `process_files` when `exclude_files` is
passed as a plain string: `list("crap")` explodes it into
one-character stems. -/
def explode_excludes (s : Str) : List Str := s.map (fun c => [c])

/-!
## The debounce watcher (`noted/watcher.py`)
-/

/-- `EXCLUDED_FILENAME_STEMS = {"crap"}` (stems are 4 characters). -/
def EXCLUDED_FILENAME_STEMS : List Str := [str "crap"]

/-- `watcher.valid_note`: lower-case the final path component; reject
names starting with `#` or `.#` and names whose first four characters
form an excluded stem; accept exactly the remaining names ending in
`.md`. -/
def valid_note (filename : Str) : Bool :=
  let n := asciiLower (basename filename)
  if (['#']).isPrefixOf n then false
  else if (['.', '#']).isPrefixOf n then false
  else if EXCLUDED_FILENAME_STEMS.contains (n.take 4) then false
  else if (str ".md").isSuffixOf n then true
  else false

/-- `watcher.MonitoredNoteTable`: an insertion-ordered map from filename
(the event's `src_path`) to the last observed modification instant. -/
structure MonitoredNoteTable where
  modified_notes : List (Str × Int)
deriving Repr, DecidableEq

/-- Python dict assignment for the table: update in place, else append. -/
def dictUpd (m : List (Str × Int)) (k : Str) (v : Int) : List (Str × Int) :=
  if m.any (fun p => p.1 == k) then
    m.map (fun p => if p.1 == k then (k, v) else p)
  else
    m ++ [(k, v)]

/-- `MonitoredNoteTable.add_note`: record `filename -> now`, silently
discarding filenames that fail `valid_note`.  (`now` stands for the
`datetime.datetime.now()` read in the source.) -/
def MonitoredNoteTable.add_note (t : MonitoredNoteTable) (filename : Str)
    (now : Int) : MonitoredNoteTable :=
  if valid_note filename then ⟨dictUpd t.modified_notes filename now⟩ else t

/-- `MonitoredNoteTable.drop_note`: remove the entry if present. -/
def MonitoredNoteTable.drop_note (t : MonitoredNoteTable) (filename : Str) :
    MonitoredNoteTable :=
  ⟨t.modified_notes.filter (fun p => ¬ p.1 == filename)⟩

/-- `MonitoredNoteTable.get_timestamp` (total model of the dict lookup;
the sweep only calls it on filenames present in the table). -/
def MonitoredNoteTable.get_timestamp (t : MonitoredNoteTable)
    (filename : Str) : Int :=
  (tableLookup t.modified_notes filename).getD 0

/-- `MonitoredNoteTable.count`. -/
def MonitoredNoteTable.count (t : MonitoredNoteTable) : Nat :=
  t.modified_notes.length

/-- `MonitoredNoteTable.notes_older_than`: filenames whose entry is
strictly older than `delta` (dict iteration order). -/
def MonitoredNoteTable.notes_older_than (t : MonitoredNoteTable)
    (now delta : Int) : List Str :=
  (t.modified_notes.filter (fun p => now - p.2 > delta)).map (fun p => p.1)

/-- The body of the sweep's `for note in aged_notes` loop in
`watcher.main`.  `readFile` models the filesystem: `none` means the
`open` in `process_file` raises `IOError`, which the sweep turns into
`sys.exit(1)` — modelled by a fatal flag that stops all further
processing.  An invalid filename is only logged (the entry is *not*
dropped); a filename already stored with its observed timestamp is only
logged (not dropped); otherwise the file is processed (`process_file`
swallows `OverwriteAttemptError` internally) and the entry is dropped. -/
def sweepStep (readFile : Str → Option (Int × Str))
    (acc : MonitoredNoteTable × DBState × Bool) (note : Str) :
    MonitoredNoteTable × DBState × Bool :=
  let (tbl, db, fatal) := acc
  if fatal then acc
  else if ¬ valid_note note then acc
  else if already_stored db note (tbl.get_timestamp note) then acc
  else
    match readFile note with
    | none => (tbl, db, true)
    | some (mtime, content) =>
      (tbl.drop_note note, process_file db ⟨note, mtime, content⟩, false)

/-- One pass of the sweep loop in `watcher.main` over the aged entries
(computed once, up front, from the table at the start of the pass). -/
def sweepOnce (table : MonitoredNoteTable) (db : DBState)
    (readFile : Str → Option (Int × Str)) (now delta : Int) :
    MonitoredNoteTable × DBState × Bool :=
  (table.notes_older_than now delta).foldl (sweepStep readFile)
    (table, db, false)

/-!
## General lemmas about the embedding
-/

/-- Every step of the decoding loop appends the stripped line to the
verbatim accumulator, whatever its category. -/
theorem decodeLine_body_lines (st : DecSt) (l : Str) :
    (decodeLine st l).body_lines = st.body_lines ++ [trimS l] := by
  unfold decodeLine
  dsimp only
  repeat first | rfl | split

/-- The decoding loop accumulates exactly the stripped lines, in order. -/
theorem foldl_decode_body_lines (ls : List Str) (st : DecSt) :
    (ls.foldl decodeLine st).body_lines = st.body_lines ++ ls.map trimS := by
  induction ls generalizing st with
  | nil => simp
  | cons l t ih =>
    simp [List.foldl_cons, ih, decodeLine_body_lines, List.append_assoc]

/-- The clean-up step stores the accumulated lines in the `_body` field. -/
theorem finishNote_body_ (st : DecSt) :
    (finishNote st).body_ = joinNl st.body_lines := by
  unfold finishNote
  split <;> rfl

/-- The rows of a notes table carrying a given filename, in insertion
order. -/
def rowsForL (rows : List NoteRow) (nm : Str) : List NoteRow :=
  rows.filter (fun r => r.filename == nm)

theorem rowsForL_append (a b : List NoteRow) (nm : Str) :
    rowsForL (a ++ b) nm = rowsForL a nm ++ rowsForL b nm := by
  unfold rowsForL
  exact List.filter_append ..

theorem find?_eq_head?_filterL {α : Type} (l : List α) (q : α → Bool) :
    l.find? q = (l.filter q).head? := by
  induction l with
  | nil => rfl
  | cons r t ih =>
    by_cases h : q r
    · rw [List.find?_cons_of_pos _ h, List.filter_cons_of_pos h]
      rfl
    · rw [List.find?_cons_of_neg _ h, List.filter_cons_of_neg h, ih]

theorem any_filter_and {α : Type} (l : List α) (p q : α → Bool) :
    (l.filter p).any q = l.any (fun x => p x && q x) := by
  induction l with
  | nil => rfl
  | cons r t ih =>
    by_cases h : p r
    · rw [List.filter_cons_of_pos h, List.any_cons, List.any_cons, ih, h]
      simp
    · rw [List.filter_cons_of_neg h, List.any_cons, ih]
      simp only [Bool.not_eq_true] at h
      rw [h]
      simp

/-- The dict lookup over the `(filename, timestamp)` rows of a notes
table sees the last row with the given filename. -/
theorem tableLookup_map_key (rows : List NoteRow) (nm : Str) :
    tableLookup (rows.map (fun r => (r.filename, r.timestamp))) nm =
      ((rowsForL rows nm).getLast?).map (fun r => r.timestamp) := by
  unfold tableLookup rowsForL
  rw [← List.map_reverse, List.find?_map, find?_eq_head?_filterL,
    List.filter_reverse, List.head?_reverse, Option.map_map]
  rfl

/-- `already_stored` only looks at the rows carrying the filename. -/
theorem already_stored_eq_rowsForL (db : DBState) (nm : Str) (ts : Int) :
    already_stored db nm ts =
      (rowsForL db.notes nm).any (fun r => r.timestamp == ts) := by
  unfold already_stored rowsForL
  rw [any_filter_and]

/-- `needs_updating` only looks at the rows carrying the file's name. -/
theorem needs_updating_congr (db1 db2 : DBState) (f : FileEntry)
    (h : rowsForL db1.notes (basename f.name) =
      rowsForL db2.notes (basename f.name)) :
    needs_updating (db1.notes.map (fun r => (r.filename, r.timestamp))) f =
      needs_updating (db2.notes.map (fun r => (r.filename, r.timestamp))) f := by
  unfold needs_updating
  rw [tableLookup_map_key, tableLookup_map_key, h]

/-- When the last row for the file's name carries exactly its mtime,
`needs_updating` is false (the comparison is strict). -/
theorem needs_updating_of_last (db : DBState) (f : FileEntry)
    (X : List NoteRow) (r : NoteRow)
    (h : rowsForL db.notes (basename f.name) = X ++ [r])
    (hts : r.timestamp = f.mtime) :
    needs_updating (db.notes.map (fun rr => (rr.filename, rr.timestamp))) f
      = false := by
  unfold needs_updating
  rw [tableLookup_map_key, h]
  simp [hts]

/-- `add_note` either rejects (already stored, notes unchanged) or
appends exactly one row with the note's filename and timestamp. -/
theorem add_note_notes (db : DBState) (n : Note) :
    (already_stored db n.filename n.timestamp = true ∧
      (add_note db n).1.notes = db.notes) ∨
    (already_stored db n.filename n.timestamp = false ∧
      (add_note db n).1.notes = db.notes ++
        [⟨db.notes.length + 1, n.filename, n.timestamp, n.to_markdown⟩]) := by
  cases h : already_stored db n.filename n.timestamp
  · right
    exact ⟨rfl, by simp [add_note, h]⟩
  · left
    exact ⟨rfl, by simp [add_note, h]⟩

theorem scanNote_filename (f : FileEntry) :
    (scanNote f).filename = basename f.name := rfl

theorem scanNote_timestamp (f : FileEntry) :
    (scanNote f).timestamp = f.mtime := rfl

/-- `process_file` either leaves the notes table unchanged (swallowed
overwrite) or appends one row carrying the file's basename and mtime. -/
theorem process_file_notes (db : DBState) (f : FileEntry) :
    (already_stored db (basename f.name) f.mtime = true ∧
      (process_file db f).notes = db.notes) ∨
    (already_stored db (basename f.name) f.mtime = false ∧
      ∃ b, (process_file db f).notes =
        db.notes ++ [⟨db.notes.length + 1, basename f.name, f.mtime, b⟩]) := by
  have h := add_note_notes db (scanNote f)
  rw [scanNote_filename, scanNote_timestamp] at h
  unfold process_file
  rcases h with ⟨h1, h2⟩ | ⟨h1, h2⟩
  · exact Or.inl ⟨h1, h2⟩
  · exact Or.inr ⟨h1, ⟨(scanNote f).to_markdown, h2⟩⟩

/-- A `process_file` touches only the rows of its own basename. -/
theorem process_file_rowsFor_other (db : DBState) (f : FileEntry) (nm : Str)
    (h : basename f.name ≠ nm) :
    rowsForL (process_file db f).notes nm = rowsForL db.notes nm := by
  rcases process_file_notes db f with ⟨_, h2⟩ | ⟨_, ⟨b, h2⟩⟩
  · rw [h2]
  · rw [h2, rowsForL_append]
    unfold rowsForL
    simp [List.filter_cons, h]

/-- When the pair is not yet stored, `process_file` appends a row with
the file's basename and mtime at the end of that name's rows. -/
theorem process_file_rowsFor_self (db : DBState) (f : FileEntry)
    (h : already_stored db (basename f.name) f.mtime = false) :
    ∃ b, rowsForL (process_file db f).notes (basename f.name) =
      rowsForL db.notes (basename f.name) ++
        [⟨db.notes.length + 1, basename f.name, f.mtime, b⟩] := by
  rcases process_file_notes db f with ⟨h1, _⟩ | ⟨_, ⟨b, h2⟩⟩
  · rw [h1] at h
    exact absurd h (by simp)
  · refine ⟨b, ?_⟩
    rw [h2, rowsForL_append]
    unfold rowsForL
    simp [List.filter_cons]

theorem scanStep_fire {ex : List Str} {tbl : List (Str × Int)}
    (acc : DBState × Nat) (f : FileEntry)
    (h1 : excluded f ex = false) (h2 : needs_updating tbl f = true) :
    scanStep ex tbl acc f = (process_file acc.1 f, acc.2 + 1) := by
  unfold scanStep
  rw [if_pos]
  exact ⟨by simp [h1], h2⟩

theorem scanStep_skip {ex : List Str} {tbl : List (Str × Int)}
    (acc : DBState × Nat) (f : FileEntry)
    (h : excluded f ex = true ∨ needs_updating tbl f = false) :
    scanStep ex tbl acc f = acc := by
  unfold scanStep
  rw [if_neg]
  rintro ⟨hn, hu⟩
  rcases h with h | h
  · exact hn h
  · rw [h] at hu
    cases hu

/-- A fold of scan steps in which no step fires is the identity. -/
theorem foldl_scanStep_no_fire (ex : List Str) (tbl : List (Str × Int))
    (fs : List FileEntry) :
    ∀ acc : DBState × Nat,
      (∀ f ∈ fs, excluded f ex = true ∨ needs_updating tbl f = false) →
      fs.foldl (scanStep ex tbl) acc = acc := by
  induction fs with
  | nil => intro acc _; rfl
  | cons g t ih =>
    intro acc h
    rw [List.foldl_cons, scanStep_skip _ _ (h g (List.mem_cons_self ..)),
      ih acc (fun f hf => h f (List.mem_cons_of_mem _ hf))]

/-- A fold of scan steps leaves the rows of a name untouched when every
file with that basename is skipped. -/
theorem scan_fold_rowsFor_untouched (ex : List Str) (tbl : List (Str × Int))
    (fs : List FileEntry) (nm : Str) :
    ∀ (db : DBState) (c : Nat),
      (∀ f ∈ fs, basename f.name = nm →
        excluded f ex = true ∨ needs_updating tbl f = false) →
      rowsForL ((fs.foldl (scanStep ex tbl) (db, c)).1).notes nm =
        rowsForL db.notes nm := by
  induction fs with
  | nil => intro db c _; rfl
  | cons g t ih =>
    intro db c h
    rw [List.foldl_cons]
    by_cases hg : excluded g ex = true ∨ needs_updating tbl g = false
    · rw [scanStep_skip _ _ hg]
      exact ih db c (fun f hf => h f (List.mem_cons_of_mem _ hf))
    · have he : excluded g ex = false := by
        cases hh : excluded g ex
        · rfl
        · exact absurd (Or.inl hh) hg
      have hn : needs_updating tbl g = true := by
        cases hh : needs_updating tbl g
        · exact absurd (Or.inr hh) hg
        · rfl
      rw [scanStep_fire _ _ he hn]
      have hgnm : basename g.name ≠ nm := by
        intro hEq
        rcases h g (List.mem_cons_self ..) hEq with h' | h'
        · rw [h'] at he
          cases he
        · rw [h'] at hn
          cases hn
      rw [ih (process_file db g) (c + 1)
        (fun f hf => h f (List.mem_cons_of_mem _ hf))]
      exact process_file_rowsFor_other db g nm hgnm

/-- After a scan fold in which no processed file hits an existing
`(filename, mtime)` pair, every file that fired ends with a row of its
own mtime as the last row for its name. -/
theorem scan_fold_rowsFor_fired (ex : List Str) (tbl : List (Str × Int))
    (fs : List FileEntry) :
    ∀ (db : DBState) (c : Nat) (f : FileEntry),
      (fs.map (fun g => basename g.name)).Nodup →
      f ∈ fs →
      excluded f ex = false →
      needs_updating tbl f = true →
      (∀ g ∈ fs, excluded g ex = false → needs_updating tbl g = true →
        already_stored db (basename g.name) g.mtime = false) →
      ∃ X r, rowsForL ((fs.foldl (scanStep ex tbl) (db, c)).1).notes
          (basename f.name) = X ++ [r] ∧ r.timestamp = f.mtime := by
  induction fs with
  | nil =>
    intro db c f _ hf
    cases hf
  | cons g t ih =>
    intro db c f hnd hf he hn hno
    have hgt : basename g.name ∉ t.map (fun x => basename x.name) :=
      (List.nodup_cons.mp hnd).1
    have hndt : (t.map (fun x => basename x.name)).Nodup :=
      (List.nodup_cons.mp hnd).2
    rw [List.foldl_cons]
    rcases List.mem_cons.mp hf with rfl | hft
    · rw [scanStep_fire _ _ he hn]
      obtain ⟨b, hrow⟩ :=
        process_file_rowsFor_self db f (hno f (List.mem_cons_self ..) he hn)
      have huntouched : ∀ h' ∈ t, basename h'.name = basename f.name →
          excluded h' ex = true ∨ needs_updating tbl h' = false := by
        intro h' hh' hEq
        exact absurd (hEq ▸ List.mem_map_of_mem _ hh') hgt
      rw [scan_fold_rowsFor_untouched ex tbl t (basename f.name) _ _
        huntouched, hrow]
      exact ⟨_, _, rfl, rfl⟩
    · by_cases hg : excluded g ex = true ∨ needs_updating tbl g = false
      · rw [scanStep_skip _ _ hg]
        exact ih db c f hndt hft he hn
          (fun g' hg' => hno g' (List.mem_cons_of_mem _ hg'))
      · have he' : excluded g ex = false := by
          cases hh : excluded g ex
          · rfl
          · exact absurd (Or.inl hh) hg
        have hn' : needs_updating tbl g = true := by
          cases hh : needs_updating tbl g
          · exact absurd (Or.inr hh) hg
          · rfl
        rw [scanStep_fire _ _ he' hn']
        apply ih (process_file db g) (c + 1) f hndt hft he hn
        intro g' hg' hexg' hng'
        have hne : basename g.name ≠ basename g'.name := by
          intro hEq
          exact hgt (hEq ▸ List.mem_map_of_mem _ hg')
        rw [already_stored_eq_rowsForL,
          process_file_rowsFor_other db g _ hne,
          ← already_stored_eq_rowsForL]
        exact hno g' (List.mem_cons_of_mem _ hg') hexg' hng'

theorem splitOnC_ne_nil (c : Char) (s : Str) : splitOnC c s ≠ [] := by
  cases s with
  | nil => simp [splitOnC]
  | cons x cs =>
    unfold splitOnC
    cases splitOnC c cs with
    | nil => simp
    | cons h t =>
      by_cases hx : x = c <;> simp [hx]

theorem not_mem_of_mem_splitOnC {c : Char} {s : Str} :
    ∀ l ∈ splitOnC c s, c ∉ l := by
  induction s with
  | nil =>
    intro l hl
    simp [splitOnC] at hl
    subst hl
    simp
  | cons x cs ih =>
    intro l hl
    rw [splitOnC] at hl
    cases hsp : splitOnC c cs with
    | nil => exact absurd hsp (splitOnC_ne_nil c cs)
    | cons h t =>
      rw [hsp] at hl
      have hmemh : h ∈ splitOnC c cs := by
        rw [hsp]
        exact List.mem_cons_self ..
      by_cases hx : x = c
      · simp only [hx, if_pos rfl] at hl
        rcases List.mem_cons.mp hl with rfl | hl'
        · simp
        · exact ih l (hsp ▸ hl')
      · simp only [if_neg hx] at hl
        rcases List.mem_cons.mp hl with rfl | hl'
        · intro hmem
          rcases List.mem_cons.mp hmem with rfl | hmem'
          · exact hx rfl
          · exact ih h hmemh hmem'
        · exact ih l (hsp ▸ List.mem_cons_of_mem _ hl')

theorem splitOnC_of_not_mem {c : Char} {s : Str} (h : c ∉ s) :
    splitOnC c s = [s] := by
  induction s with
  | nil => rfl
  | cons x cs ih =>
    have hx : ¬ x = c := fun e => h (e ▸ List.mem_cons_self ..)
    have h' : c ∉ cs := fun hc => h (List.mem_cons_of_mem _ hc)
    rw [splitOnC, ih h']
    simp [hx]

/-- The final path component contains no separator, so taking it twice
is the same as taking it once. -/
theorem basename_idem (s : Str) : basename (basename s) = basename s := by
  have h1 : basename s ∈ splitOnC '/' s := by
    unfold basename
    cases hsp : splitOnC '/' s with
    | nil => exact absurd hsp (splitOnC_ne_nil '/' s)
    | cons a t =>
      rw [List.getLastD_eq_getLast? , List.getLast?_eq_getLast _ (by simp)]
      simp only [Option.getD_some]
      exact List.getLast_mem _
  have h2 : '/' ∉ basename s := not_mem_of_mem_splitOnC _ h1
  unfold basename at h2 ⊢
  rw [splitOnC_of_not_mem h2]
  rfl

/-- `valid_note` only looks at the final path component. -/
theorem valid_note_basename (s : Str) :
    valid_note (basename s) = valid_note s := by
  unfold valid_note
  rw [basename_idem]

/-- A name ending in `~` does not end in `.md`. -/
theorem tilde_not_md (n : Str) (h : (['~']).isSuffixOf n = true) :
    (str ".md").isSuffixOf n = false := by
  rw [List.isSuffixOf_iff_suffix] at h
  obtain ⟨t, ht⟩ := h
  cases hmd : (str ".md").isSuffixOf n with
  | false => rfl
  | true =>
    rw [List.isSuffixOf_iff_suffix] at hmd
    obtain ⟨t', ht'⟩ := hmd
    have e1 : n.getLast? = some '~' := by
      rw [← ht]
      exact List.getLast?_concat _
    have e2 : n.getLast? = some 'd' := by
      rw [← ht']
      have : t' ++ str ".md" = (t' ++ ['.', 'm']) ++ ['d'] := by
        simp [str]
      rw [this]
      exact List.getLast?_concat _
    rw [e1] at e2
    cases e2

/-- One sweep step never changes the rows of a filename that fails the
validity filter. -/
theorem sweepStep_rowsFor (readFile : Str → Option (Int × Str))
    (note name : Str) (hval : valid_note name = false)
    (acc : MonitoredNoteTable × DBState × Bool) :
    rowsForL (sweepStep readFile acc note).2.1.notes name =
      rowsForL acc.2.1.notes name := by
  obtain ⟨tbl, db, fatal⟩ := acc
  unfold sweepStep
  dsimp only
  cases fatal with
  | true => rw [if_pos rfl]
  | false =>
    rw [if_neg (by simp)]
    by_cases hv : valid_note note = true
    · rw [if_neg (by simp [hv])]
      by_cases hs : already_stored db note (tbl.get_timestamp note) = true
      · rw [if_pos hs]
      · rw [if_neg hs]
        cases hrf : readFile note with
        | none => rfl
        | some mc =>
          obtain ⟨mtime, content⟩ := mc
          have hne : basename note ≠ name := by
            intro hEq
            rw [← hEq, valid_note_basename note, hv] at hval
            cases hval
          exact process_file_rowsFor_other db ⟨note, mtime, content⟩ name hne
    · rw [if_pos (by simp [hv])]

/-- A sweep pass never changes the rows of a filename that fails the
validity filter. -/
theorem sweep_fold_rowsFor (readFile : Str → Option (Int × Str))
    (names : List Str) (name : Str) (hval : valid_note name = false) :
    ∀ acc : MonitoredNoteTable × DBState × Bool,
      rowsForL ((names.foldl (sweepStep readFile) acc).2.1).notes name =
        rowsForL acc.2.1.notes name := by
  induction names with
  | nil => intro acc; rfl
  | cons note t ih =>
    intro acc
    rw [List.foldl_cons, ih, sweepStep_rowsFor readFile note name hval]

/-- The validity invariant of the watcher table: every stored filename
passes `valid_note`. -/
def tableInv (t : MonitoredNoteTable) : Bool :=
  t.modified_notes.all (fun p => valid_note p.1)

/-- A well-founded claim-statement helper: is a list of notes sorted in
descending order of timestamp (most recent first)? -/
def descByTimestamp (l : List Note) : Bool :=
  (l.zip l.tail).all (fun p => p.2.timestamp ≤ p.1.timestamp)

/-!
## Lemmas for the codec round trip (claim C1)

Well-formedness: the round trip restored by the amended claim C1 holds
for notes whose title, tags, section headings and section data survive
the decoder's per-line stripping and re-categorisation.
-/

/-- The string has no leading or trailing whitespace (so `strip` leaves
it unchanged). -/
def okEnds (s : Str) : Bool :=
  (match s.head? with | some c => !pySpace c | none => true) &&
  (match s.getLast? with | some c => !pySpace c | none => true)

/-- A tag value that the metadata codec transports verbatim: non-empty,
strip-invariant, and free of the separator and pattern characters
`,` `;` `:` `?` and of newlines. -/
def goodTag (w : Str) : Bool :=
  !w.isEmpty && okEnds w &&
    w.all (fun c => !(c == ',' || c == ';' || c == ':' || c == '?' || c == '\n'))

/-- A title or section heading the codec transports verbatim: non-empty,
strip-invariant, newline-free. -/
def goodName (h : Str) : Bool :=
  !h.isEmpty && okEnds h && h.all (fun c => !(c == '\n'))

/-- A section-data line the decoder neither strips nor re-categorises. -/
def goodDataLine (l : Str) : Bool :=
  okEnds l && !(str "# ").isPrefixOf l && !(str "<?").isPrefixOf l &&
    !(str "## ").isPrefixOf l

/-- Section data the codec transports verbatim. -/
def goodData (d : Str) : Bool :=
  okEnds d && (splitOnC '\n' d).all goodDataLine

/-- A well-formed stored section entry: good heading, the `Section`'s
`header` field matching its key, good data. -/
def goodSection (p : Str × Section) : Bool :=
  goodName p.1 && (p.2.header == p.1) && goodData p.2.data

/-- No two entries share a key (the Python `dict` invariant). -/
def nodupKeys : List (Str × Section) → Bool
  | [] => true
  | p :: t => !(t.any (fun q => q.1 == p.1)) && nodupKeys t

/-- The well-formedness bundle for the amended round-trip claim. -/
def wfNote (n : Note) : Bool :=
  goodName n.page_header &&
  n.keywords.all goodTag && n.present.all goodTag && n.speakers.all goodTag &&
  n.sections.all goodSection && nodupKeys n.sections

/-- The right-trim step is the identity on a string whose last
character, if any, is not whitespace. -/
theorem dropWhile_reverse_id (s : Str)
    (hl : ∀ c, s.getLast? = some c → pySpace c = false) :
    (s.reverse.dropWhile pySpace).reverse = s := by
  cases hrev : s.reverse with
  | nil =>
    rw [List.dropWhile_nil, ← hrev, List.reverse_reverse]
  | cons y ys =>
    have hy : pySpace y = false := by
      apply hl
      rw [← List.head?_reverse, hrev]
      rfl
    rw [List.dropWhile_cons, hy]
    simp only [Bool.false_eq_true, if_false]
    rw [← hrev, List.reverse_reverse]

theorem trimS_eq_self (s : Str)
    (hh : ∀ c, s.head? = some c → pySpace c = false)
    (hl : ∀ c, s.getLast? = some c → pySpace c = false) :
    trimS s = s := by
  unfold trimS
  cases s with
  | nil => rfl
  | cons x xs =>
    have hx : pySpace x = false := hh x rfl
    rw [List.dropWhile_cons, hx]
    simp only [Bool.false_eq_true, if_false]
    exact dropWhile_reverse_id (x :: xs) hl

/-- Stripping removes a single whitespace pad on each side of a
strip-invariant string. -/
theorem trimS_pad (a b : Char) (s : Str)
    (ha : pySpace a = true) (hb : pySpace b = true)
    (hh : ∀ c, s.head? = some c → pySpace c = false)
    (hl : ∀ c, s.getLast? = some c → pySpace c = false) :
    trimS (a :: (s ++ [b])) = s := by
  unfold trimS
  rw [List.dropWhile_cons, ha]
  simp only [if_true]
  cases s with
  | nil => simp [List.dropWhile, hb]
  | cons x xs =>
    have hx : pySpace x = false := hh x rfl
    rw [List.cons_append, List.dropWhile_cons, hx]
    simp only [Bool.false_eq_true, if_false]
    have hshape : (x :: (xs ++ [b])).reverse = b :: (x :: xs).reverse := by
      rw [show x :: (xs ++ [b]) = (x :: xs) ++ [b] from rfl,
        List.reverse_append]
      rfl
    rw [hshape, List.dropWhile_cons, hb]
    simp only [if_true]
    exact dropWhile_reverse_id (x :: xs) hl

/-- Stripping removes a single leading whitespace character from a
strip-invariant string. -/
theorem trimS_padL (a : Char) (s : Str) (ha : pySpace a = true)
    (hh : ∀ c, s.head? = some c → pySpace c = false)
    (hl : ∀ c, s.getLast? = some c → pySpace c = false) :
    trimS (a :: s) = s := by
  unfold trimS
  rw [List.dropWhile_cons, ha]
  simp only [if_true]
  cases s with
  | nil => rfl
  | cons x xs =>
    have hx : pySpace x = false := hh x rfl
    rw [List.dropWhile_cons, hx]
    simp only [Bool.false_eq_true, if_false]
    exact dropWhile_reverse_id (x :: xs) hl

theorem okEnds_head {s : Str} (h : okEnds s = true) :
    ∀ c, s.head? = some c → pySpace c = false := by
  intro c hc
  unfold okEnds at h
  rw [Bool.and_eq_true] at h
  rw [hc] at h
  simpa using h.1

theorem okEnds_last {s : Str} (h : okEnds s = true) :
    ∀ c, s.getLast? = some c → pySpace c = false := by
  intro c hc
  unfold okEnds at h
  rw [Bool.and_eq_true] at h
  rw [hc] at h
  simpa using h.2

/-- Strip-invariance from `okEnds`. -/
theorem trimS_of_okEnds {s : Str} (h : okEnds s = true) : trimS s = s :=
  trimS_eq_self s (okEnds_head h) (okEnds_last h)

/-!
Join/split lemmas.
-/

theorem joinWith_cons (sep : Str) (x : Str) (ps : List Str) (h : ps ≠ []) :
    joinWith sep (x :: ps) = x ++ sep ++ joinWith sep ps := by
  cases ps with
  | nil => exact absurd rfl h
  | cons y t => rfl

theorem joinWith_append_single (sep : Str) (ps : List Str) (x : Str)
    (h : ps ≠ []) :
    joinWith sep (ps ++ [x]) = joinWith sep ps ++ sep ++ x := by
  induction ps with
  | nil => exact absurd rfl h
  | cons y t ih =>
    cases t with
    | nil => rfl
    | cons z t' =>
      rw [List.cons_append, joinWith_cons sep y (z :: t' ++ [x]) (by simp),
        joinWith_cons sep y (z :: t') (by simp), ih (by simp)]
      simp [List.append_assoc]

/-- The one-step equation of `splitOnC` once the tail's split is known. -/
theorem splitOnC_cons_eq (c x : Char) (cs h' : Str) (t : List Str)
    (hsp : splitOnC c cs = h' :: t) :
    splitOnC c (x :: cs) =
      if x = c then [] :: h' :: t else (x :: h') :: t := by
  rw [splitOnC, hsp]

theorem joinNl_splitOnC (s : Str) : joinNl (splitOnC '\n' s) = s := by
  induction s with
  | nil => rfl
  | cons c cs ih =>
    cases hsp : splitOnC '\n' cs with
    | nil => exact absurd hsp (splitOnC_ne_nil _ _)
    | cons h t =>
      rw [hsp] at ih
      rw [splitOnC_cons_eq '\n' c cs h t hsp]
      by_cases hc : c = '\n'
      · subst hc
        rw [if_pos rfl]
        show joinWith ['\n'] ([] :: h :: t) = '\n' :: cs
        rw [joinWith, ← ih]
        rfl
      · rw [if_neg hc]
        cases t with
        | nil =>
          show c :: h = c :: cs
          exact congrArg (List.cons c) ih
        | cons u v =>
          show (c :: h) ++ ['\n'] ++ joinWith ['\n'] (u :: v) = c :: cs
          rw [← ih]
          rfl

theorem splitOnC_append_sep (c : Char) (x y : Str) :
    splitOnC c (x ++ c :: y) = splitOnC c x ++ splitOnC c y := by
  induction x with
  | nil =>
    rw [List.nil_append]
    cases hsp : splitOnC c y with
    | nil => exact absurd hsp (splitOnC_ne_nil _ _)
    | cons h t =>
      rw [splitOnC_cons_eq c c y h t hsp, if_pos rfl]
      rfl
  | cons a as ih =>
    rw [List.cons_append]
    cases hsp2 : splitOnC c (as ++ c :: y) with
    | nil => exact absurd hsp2 (splitOnC_ne_nil _ _)
    | cons h2 t2 =>
      rw [splitOnC_cons_eq c a (as ++ c :: y) h2 t2 hsp2]
      cases hsp : splitOnC c as with
      | nil => exact absurd hsp (splitOnC_ne_nil _ _)
      | cons h t =>
        rw [splitOnC_cons_eq c a as h t hsp]
        rw [hsp2, hsp] at ih
        by_cases hac : a = c
        · rw [if_pos hac, if_pos hac, ih]
          rfl
        · rw [if_neg hac, if_neg hac]
          injection ih with ih1 ih2
          subst ih1
          subst ih2
          rfl

theorem splitOnC_joinWith (c : Char) (ps : List Str) (hne : ps ≠ []) :
    splitOnC c (joinWith [c] ps) = ps.flatMap (splitOnC c) := by
  induction ps with
  | nil => exact absurd rfl hne
  | cons x t ih =>
    cases t with
    | nil => simp [joinWith, List.flatMap_cons]
    | cons y v =>
      rw [joinWith_cons _ _ _ (by simp), List.append_assoc,
        List.singleton_append, splitOnC_append_sep, ih (by simp)]
      simp [List.flatMap_cons, List.append_assoc]

theorem mem_joinWith {c : Char} {sep : Str} {ps : List Str}
    (h : c ∈ joinWith sep ps) : c ∈ sep ∨ ∃ p ∈ ps, c ∈ p := by
  induction ps with
  | nil => cases h
  | cons x t ih =>
    cases t with
    | nil =>
      right
      exact ⟨x, List.mem_cons_self .., h⟩
    | cons y v =>
      rw [joinWith_cons _ _ _ (by simp), List.append_assoc] at h
      rcases List.mem_append.mp h with h' | h'
      · right
        exact ⟨x, List.mem_cons_self .., h'⟩
      · rcases List.mem_append.mp h' with h'' | h''
        · exact Or.inl h''
        · rcases ih h'' with h3 | ⟨p, hp, hcp⟩
          · exact Or.inl h3
          · exact Or.inr ⟨p, List.mem_cons_of_mem _ hp, hcp⟩

/-- The join of non-empty strip-invariant pieces has non-whitespace
ends (the ends come from the first and last pieces). -/
theorem okEnds_joinWith (sep : Str) (ps : List Str) (hne : ps ≠ [])
    (hwf : ∀ p ∈ ps, p ≠ [] ∧ okEnds p = true) :
    okEnds (joinWith sep ps) = true := by
  induction ps with
  | nil => exact absurd rfl hne
  | cons x t ih =>
    obtain ⟨hxne, hxok⟩ := hwf x (List.mem_cons_self ..)
    cases t with
    | nil => exact hxok
    | cons y v =>
      have hrest : okEnds (joinWith sep (y :: v)) = true :=
        ih (by simp) (fun p hp => hwf p (List.mem_cons_of_mem _ hp))
      have hyne : joinWith sep (y :: v) ≠ [] := by
        intro hEq
        obtain ⟨hyne', hyok⟩ := hwf y (by simp)
        cases v with
        | nil => exact hyne' hEq
        | cons z w =>
          rw [joinWith_cons _ _ _ (by simp)] at hEq
          rcases List.append_eq_nil.mp hEq with ⟨h1, _⟩
          rcases List.append_eq_nil.mp h1 with ⟨h2, _⟩
          exact hyne' h2
      rw [joinWith_cons _ _ _ (by simp)]
      unfold okEnds
      rw [Bool.and_eq_true]
      constructor
      · rw [List.append_assoc, List.head?_append]
        cases hx : x.head? with
        | none =>
          rw [List.head?_eq_none_iff] at hx
          exact absurd hx hxne
        | some ch =>
          rw [Option.or_some]
          have := okEnds_head hxok ch hx
          simp [this]
      · rw [List.append_assoc, List.getLast?_append]
        cases hy2 : (joinWith sep (y :: v)).getLast? with
        | none =>
          rw [List.getLast?_eq_none_iff] at hy2
          exact absurd hy2 hyne
        | some ch' =>
          rw [List.getLast?_append, hy2, Option.or_some, Option.or_some]
          have := okEnds_last hrest ch' hy2
          simp [this]

/-!
Replacement lemmas (for `extract_match`).
-/

theorem replaceFuel_congr (pat rep : Str) :
    ∀ (n m : Nat) (s : Str), s.length ≤ n → s.length ≤ m →
      replaceFuel pat rep n s = replaceFuel pat rep m s := by
  intro n
  induction n with
  | zero =>
    intro m s hn _
    have hs : s = [] := List.eq_nil_of_length_eq_zero (Nat.le_zero.mp hn)
    subst hs
    cases m <;> rfl
  | succ n ih =>
    intro m s hn hm
    cases s with
    | nil => cases m <;> rfl
    | cons c cs =>
      cases m with
      | zero => simp at hm
      | succ m' =>
        have hlen : cs.length ≤ n := by
          simpa using hn
        have hlen' : cs.length ≤ m' := by
          simpa using hm
        rw [replaceFuel, replaceFuel]
        by_cases hc : pat ≠ [] ∧ pat.isPrefixOf (c :: cs) = true
        · rw [if_pos hc, if_pos hc]
          have hd : (cs.drop (pat.length - 1)).length ≤ n := by
            rw [List.length_drop]
            omega
          have hd' : (cs.drop (pat.length - 1)).length ≤ m' := by
            rw [List.length_drop]
            omega
          rw [ih m' _ hd hd']
        · rw [if_neg hc, if_neg hc, ih m' cs hlen hlen']

/-- The one-step equation of `replaceL`. -/
theorem replaceL_cons (pat rep : Str) (c : Char) (cs : Str) :
    replaceL pat rep (c :: cs) =
      if pat ≠ [] ∧ pat.isPrefixOf (c :: cs) = true then
        rep ++ replaceL pat rep (cs.drop (pat.length - 1))
      else c :: replaceL pat rep cs := by
  unfold replaceL
  rw [show (c :: cs).length = cs.length + 1 from rfl, replaceFuel]
  by_cases hc : pat ≠ [] ∧ pat.isPrefixOf (c :: cs) = true
  · rw [if_pos hc, if_pos hc]
    rw [replaceFuel_congr pat rep cs.length (cs.drop (pat.length - 1)).length
      (cs.drop (pat.length - 1)) (by rw [List.length_drop]; omega) le_rfl]
  · rw [if_neg hc, if_neg hc]

theorem replaceL_skip {p : Char} {ps rep : Str} (a s : Str) (ha : p ∉ a) :
    replaceL (p :: ps) rep (a ++ s) = a ++ replaceL (p :: ps) rep s := by
  induction a with
  | nil => rfl
  | cons c a' ih =>
    have ha' : p ∉ a' := fun hm => ha (List.mem_cons_of_mem _ hm)
    have hcp : ¬ (p :: ps).isPrefixOf (c :: (a' ++ s)) = true := by
      intro hpre
      rw [List.isPrefixOf_iff_prefix] at hpre
      obtain ⟨t, ht⟩ := hpre
      have : p = c := by
        have := congrArg (fun l => l.head?) ht
        simpa using this
      exact ha (this ▸ List.mem_cons_self ..)
    rw [List.cons_append, replaceL_cons, if_neg (fun hand => hcp hand.2),
      ih ha']
    rfl

theorem replaceL_nomatch {p : Char} {ps rep : Str} (s : Str) (h : p ∉ s) :
    replaceL (p :: ps) rep s = s := by
  have hthis := @replaceL_skip p ps rep s [] h
  rw [List.append_nil, show replaceL (p :: ps) rep [] = [] from rfl,
    List.append_nil] at hthis
  exact hthis

theorem replaceL_head (p : Char) (ps rep s : Str) :
    replaceL (p :: ps) rep ((p :: ps) ++ s) = rep ++ replaceL (p :: ps) rep s := by
  rw [List.cons_append, replaceL_cons, if_pos]
  · have hdrop : (ps ++ s).drop ((p :: ps).length - 1) = s := by
      simp only [List.length_cons, Nat.add_sub_cancel]
      exact List.drop_left ps s
    rw [hdrop]
  · constructor
    · simp
    · rw [List.isPrefixOf_iff_prefix]
      exact ⟨s, by simp⟩

/-- Over comma-free tags, normalizing `", "` to `","` turns the
`", "`-join into the `","`-join. -/
theorem replace_join (tags : List Str) (hne : tags ≠ [])
    (hcf : ∀ t ∈ tags, ',' ∉ t) :
    replaceL (str ", ") [','] (joinWith (str ", ") tags) =
      joinWith [','] tags := by
  induction tags with
  | nil => exact absurd rfl hne
  | cons x t ih =>
    cases t with
    | nil =>
      show replaceL (str ", ") [','] x = x
      exact replaceL_nomatch x (hcf x (List.mem_cons_self ..))
    | cons y v =>
      have hstr : str ", " = ',' :: [' '] := rfl
      have ihv := ih (by simp) (fun t' ht' => hcf t' (List.mem_cons_of_mem _ ht'))
      rw [hstr] at ihv ⊢
      rw [joinWith_cons _ _ _ (by simp), joinWith_cons [','] _ _ (by simp),
        List.append_assoc]
      rw [replaceL_skip _ _ (hcf x (List.mem_cons_self ..))]
      rw [replaceL_head ',' [' '] [','] (joinWith (',' :: [' ']) (y :: v))]
      rw [ihv]
      simp [List.append_assoc]

/-- Splitting the `","`-join of comma-free tags recovers the tags. -/
theorem splitOnC_joinWith_comma (tags : List Str) (hne : tags ≠ [])
    (hcf : ∀ t ∈ tags, ',' ∉ t) :
    splitOnC ',' (joinWith [','] tags) = tags := by
  induction tags with
  | nil => exact absurd rfl hne
  | cons x t ih =>
    cases t with
    | nil =>
      show splitOnC ',' x = [x]
      exact splitOnC_of_not_mem (hcf x (List.mem_cons_self ..))
    | cons y v =>
      rw [joinWith_cons _ _ _ (by simp), List.append_assoc,
        List.singleton_append, splitOnC_append_sep,
        splitOnC_of_not_mem (hcf x (List.mem_cons_self ..)),
        ih (by simp) (fun t' ht' => hcf t' (List.mem_cons_of_mem _ ht'))]
      rfl

/-!
The metadata regex semantics.
-/

theorem findTagRest_none {w : Str} {pl : Bool} {s : Str} (h : ':' ∉ s) :
    findTagRest w pl s = none := by
  induction s with
  | nil => rfl
  | cons c cs ih =>
    rw [findTagRest, ih (fun hc => h (List.mem_cons_of_mem _ hc))]
    have h1 : (w ++ [':']).isPrefixOf (c :: cs) = false := by
      cases hp : (w ++ [':']).isPrefixOf (c :: cs)
      · rfl
      · exfalso
        rw [List.isPrefixOf_iff_prefix] at hp
        exact h (hp.subset (by simp))
    have h2 : (w ++ ['s', ':']).isPrefixOf (c :: cs) = false := by
      cases hp : (w ++ ['s', ':']).isPrefixOf (c :: cs)
      · rfl
      · exfalso
        rw [List.isPrefixOf_iff_prefix] at hp
        exact h (hp.subset (by simp))
    rw [h1, h2]
    simp

/-- With the colon positions pinned down, `word ++ ":"` is a prefix of
`v ++ ":" ++ b` exactly when the word is all of `v`. -/
theorem colon_prefix_iff (u v b : Str) (hu : ':' ∉ u) (hv : ':' ∉ v) :
    ((u ++ [':']).isPrefixOf (v ++ ':' :: b) = true) ↔ u = v := by
  induction u generalizing v with
  | nil =>
    cases v with
    | nil => simp [List.isPrefixOf]
    | cons y v' =>
      have hy : y ≠ ':' := fun e => hv (e ▸ List.mem_cons_self ..)
      constructor
      · intro hp
        exfalso
        rw [List.nil_append, List.cons_append] at hp
        simp only [List.isPrefixOf, Bool.and_eq_true, beq_iff_eq] at hp
        exact hy hp.1.symm
      · intro hEq
        cases hEq
  | cons x u' ih =>
    cases v with
    | nil =>
      have hx : x ≠ ':' := fun e => hu (e ▸ List.mem_cons_self ..)
      constructor
      · intro hp
        exfalso
        rw [List.nil_append, List.cons_append] at hp
        simp only [List.isPrefixOf, Bool.and_eq_true, beq_iff_eq] at hp
        exact hx hp.1
      · intro hEq
        cases hEq
    | cons y v' =>
      have hu' : ':' ∉ u' := fun hc => hu (List.mem_cons_of_mem _ hc)
      have hv' : ':' ∉ v' := fun hc => hv (List.mem_cons_of_mem _ hc)
      rw [List.cons_append, List.cons_append]
      simp only [List.isPrefixOf, Bool.and_eq_true, beq_iff_eq]
      rw [ih v' hu' hv']
      constructor
      · rintro ⟨rfl, rfl⟩
        rfl
      · intro hEq
        injection hEq with h1 h2
        exact ⟨h1, h2⟩

/-- The greedy `.*word(s?):` match on a line with exactly one colon:
the rightmost (only) candidate fires exactly when the text before the
colon ends with the word (or its plural). -/
theorem findTagRest_unique_colon (w : Str) (pl : Bool) (a b : Str)
    (hw : ':' ∉ w) (hwne : w ≠ []) (ha : ':' ∉ a) (hb : ':' ∉ b) :
    findTagRest w pl (a ++ ':' :: b) =
      if w.isSuffixOf a || (pl && (w ++ ['s']).isSuffixOf a) then some b
      else none := by
  induction a with
  | nil =>
    rw [List.nil_append, findTagRest, findTagRest_none hb]
    obtain ⟨wh, wt, rfl⟩ : ∃ wh wt, w = wh :: wt := by
      cases w with
      | nil => exact absurd rfl hwne
      | cons wh wt => exact ⟨wh, wt, rfl⟩
    have hwh : wh ≠ ':' := fun e => hw (e ▸ List.mem_cons_self ..)
    have h1 : ((wh :: wt) ++ [':']).isPrefixOf (':' :: b) = false := by
      rw [List.cons_append]
      simp only [List.isPrefixOf, Bool.and_eq_true, beq_iff_eq]
      simp [hwh]
    have h2 : ((wh :: wt) ++ ['s', ':']).isPrefixOf (':' :: b) = false := by
      rw [List.cons_append]
      simp only [List.isPrefixOf, Bool.and_eq_true, beq_iff_eq]
      simp [hwh]
    rw [h1, h2]
    have hsuf1 : (wh :: wt).isSuffixOf ([] : Str) = false := by
      simp [List.isSuffixOf]
    have hsuf2 : ((wh :: wt) ++ ['s']).isSuffixOf ([] : Str) = false := by
      rw [List.cons_append]
      simp [List.isSuffixOf]
    rw [hsuf1, hsuf2]
    simp
  | cons x a' ih =>
    have ha' : ':' ∉ a' := fun hc => ha (List.mem_cons_of_mem _ hc)
    have hx : x ≠ ':' := fun e => ha (e ▸ List.mem_cons_self ..)
    rw [List.cons_append, findTagRest, ih ha']
    by_cases hcond : (w.isSuffixOf a' || (pl && (w ++ ['s']).isSuffixOf a'))
      = true
    · rw [hcond]
      have hcond2 : (w.isSuffixOf (x :: a') ||
          (pl && (w ++ ['s']).isSuffixOf (x :: a'))) = true := by
        rcases Bool.or_eq_true_iff.mp hcond with h | h
        · apply Bool.or_eq_true_iff.mpr
          left
          rw [List.isSuffixOf_iff_suffix] at h ⊢
          exact h.trans (List.suffix_cons x a')
        · apply Bool.or_eq_true_iff.mpr
          right
          rw [Bool.and_eq_true] at h ⊢
          refine ⟨h.1, ?_⟩
          have h2 := h.2
          rw [List.isSuffixOf_iff_suffix] at h2 ⊢
          exact h2.trans (List.suffix_cons x a')
      rw [hcond2]
      rfl
    · rw [Bool.not_eq_true] at hcond
      rw [hcond]
      simp only [Bool.false_eq_true, if_false]
      rw [Bool.or_eq_false_iff] at hcond
      obtain ⟨hcond1, hcond2⟩ := hcond
      have hmem : ':' ∉ x :: a' := by
        intro hm
        rcases List.mem_cons.mp hm with hm' | hm'
        · exact hx hm'.symm
        · exact ha' hm'
      have hws : ':' ∉ w ++ ['s'] := by
        intro hm
        rcases List.mem_append.mp hm with hm' | hm'
        · exact hw hm'
        · simp at hm'
      have hiff1 : ((w ++ [':']).isPrefixOf (x :: (a' ++ ':' :: b)) = true) ↔
          w = x :: a' :=
        colon_prefix_iff w (x :: a') b hw hmem
      have hiff2 : ((w ++ ['s', ':']).isPrefixOf (x :: (a' ++ ':' :: b))
          = true) ↔ w ++ ['s'] = x :: a' := by
        show ((w ++ ['s', ':']).isPrefixOf ((x :: a') ++ ':' :: b) = true) ↔
          w ++ ['s'] = x :: a'
        rw [show w ++ ['s', ':'] = (w ++ ['s']) ++ [':'] by simp]
        exact colon_prefix_iff (w ++ ['s']) (x :: a') b hws hmem
      have hsufrefl : ∀ l : Str, l.isSuffixOf l = true := by
        intro l
        rw [List.isSuffixOf_iff_suffix]
      cases hs1 : w.isSuffixOf (x :: a') with
      | true =>
        have hEq : w = x :: a' := by
          rw [List.isSuffixOf_iff_suffix] at hs1
          rcases List.suffix_cons_iff.mp hs1 with hEq | hsuf
          · exact hEq
          · exfalso
            rw [show w.isSuffixOf a' = true by
              rw [List.isSuffixOf_iff_suffix]; exact hsuf] at hcond1
            cases hcond1
        rw [if_pos (hiff1.mpr hEq)]
        have hdrop : (x :: (a' ++ ':' :: b)).drop (w.length + 1) = b := by
          show ((x :: a') ++ ':' :: b).drop (w.length + 1) = b
          rw [← hEq, show (w ++ ':' :: b) = (w ++ [':']) ++ b by simp]
          exact List.drop_left' (by simp)
        rw [hdrop]
        simp
      | false =>
        have hne1 : ¬ ((w ++ [':']).isPrefixOf (x :: (a' ++ ':' :: b))
            = true) := by
          intro hEq
          have hweq := hiff1.mp hEq
          rw [← hweq] at hs1
          rw [hsufrefl w] at hs1
          cases hs1
        rw [if_neg hne1]
        cases hpl : pl with
        | false =>
          simp
        | true =>
          rw [hpl] at hcond2
          simp only [Bool.true_and] at hcond2 ⊢
          cases hs2 : (w ++ ['s']).isSuffixOf (x :: a') with
          | true =>
            have hEq : w ++ ['s'] = x :: a' := by
              rw [List.isSuffixOf_iff_suffix] at hs2
              rcases List.suffix_cons_iff.mp hs2 with hEq | hsuf
              · exact hEq
              · exfalso
                rw [show (w ++ ['s']).isSuffixOf a' = true by
                  rw [List.isSuffixOf_iff_suffix]; exact hsuf] at hcond2
                cases hcond2
            rw [if_pos (hiff2.mpr hEq)]
            have hdrop : (x :: (a' ++ ':' :: b)).drop (w.length + 2) = b := by
              show ((x :: a') ++ ':' :: b).drop (w.length + 2) = b
              rw [← hEq,
                show ((w ++ ['s']) ++ ':' :: b) = (w ++ ['s', ':']) ++ b by
                  simp]
              exact List.drop_left' (by simp)
            rw [hdrop]
            simp
          | false =>
            have hne2 : ¬ ((w ++ ['s', ':']).isPrefixOf (x :: (a' ++ ':' :: b))
                = true) := by
              intro hEq
              have hweq := hiff2.mp hEq
              rw [← hweq] at hs2
              rw [hsufrefl (w ++ ['s'])] at hs2
              cases hs2
            rw [if_neg hne2]
            simp


/-!
Unpacking the well-formedness predicates.
-/

theorem goodTag_props {t : Str} (h : goodTag t = true) :
    t ≠ [] ∧ okEnds t = true ∧
      ',' ∉ t ∧ ';' ∉ t ∧ ':' ∉ t ∧ '?' ∉ t ∧ '\n' ∉ t := by
  unfold goodTag at h
  rw [Bool.and_eq_true, Bool.and_eq_true] at h
  obtain ⟨⟨hne, hok⟩, hall⟩ := h
  rw [List.all_eq_true] at hall
  have hne' : t ≠ [] := by
    intro hEq
    rw [hEq] at hne
    simp at hne
  refine ⟨hne', hok, ?_, ?_, ?_, ?_, ?_⟩
  all_goals
    intro hm
    have h2 := hall _ hm
    simp at h2

theorem goodName_props {h : Str} (hg : goodName h = true) :
    h ≠ [] ∧ okEnds h = true ∧ '\n' ∉ h := by
  unfold goodName at hg
  rw [Bool.and_eq_true, Bool.and_eq_true] at hg
  obtain ⟨⟨hne, hok⟩, hall⟩ := hg
  rw [List.all_eq_true] at hall
  have hne' : h ≠ [] := by
    intro hEq
    rw [hEq] at hne
    simp at hne
  refine ⟨hne', hok, ?_⟩
  intro hm
  have h2 := hall _ hm
  simp at h2

theorem goodSection_props {p : Str × Section} (h : goodSection p = true) :
    goodName p.1 = true ∧ p.2.header = p.1 ∧ goodData p.2.data = true := by
  unfold goodSection at h
  rw [Bool.and_eq_true, Bool.and_eq_true] at h
  obtain ⟨⟨h1, h2⟩, h3⟩ := h
  exact ⟨h1, by simpa using h2, h3⟩

theorem goodData_props {d : Str} (h : goodData d = true) :
    okEnds d = true ∧ ∀ l ∈ splitOnC '\n' d, goodDataLine l = true := by
  unfold goodData at h
  rw [Bool.and_eq_true] at h
  refine ⟨h.1, fun l hl => ?_⟩
  have h2 := h.2
  rw [List.all_eq_true] at h2
  exact h2 l hl

/-- No forbidden character enters the `", "`-join of good tags. -/
theorem joinTags_no_char {c : Char} {tags : List Str}
    (hsep : c ∉ str ", ") (htags : ∀ t ∈ tags, c ∉ t) :
    c ∉ joinWith (str ", ") tags := by
  intro hmem
  rcases mem_joinWith hmem with h | ⟨p, hp, hcp⟩
  · exact hsep h
  · exact htags p hp hcp

theorem okEnds_joinTags {tags : List Str} (hne : tags ≠ [])
    (hgood : ∀ t ∈ tags, goodTag t = true) :
    okEnds (joinWith (str ", ") tags) = true :=
  okEnds_joinWith _ _ hne (fun p hp =>
    ⟨(goodTag_props (hgood p hp)).1, (goodTag_props (hgood p hp)).2.1⟩)

/-- Evaluating a metadata pattern on an emitted metadata line
`"<? " ++ u ++ ": " ++ join ++ " ?>"`: the match succeeds exactly when
the tag word (or its plural) ends the text `" " ++ u` before the colon,
and then the extracted group is the tag list itself. -/
theorem matchMeta_metaLine (w u : Str) (pl : Bool) (tags : List Str)
    (hu : ':' ∉ u) (hw : ':' ∉ w) (hwne : w ≠ [])
    (htags : tags ≠ []) (hgood : ∀ t ∈ tags, goodTag t = true) :
    matchMeta w pl
        (str "<? " ++ u ++ str ": " ++ joinWith (str ", ") tags ++ str " ?>") =
      if w.isSuffixOf (' ' :: u) || (pl && (w ++ ['s']).isSuffixOf (' ' :: u))
      then some tags else none := by
  have hJcomma : ∀ t ∈ tags, ',' ∉ t :=
    fun t ht => (goodTag_props (hgood t ht)).2.2.1
  have hJsemi : ';' ∉ joinWith (str ", ") tags :=
    joinTags_no_char (by decide)
      (fun t ht => (goodTag_props (hgood t ht)).2.2.2.1)
  have hJcolon : ':' ∉ joinWith (str ", ") tags :=
    joinTags_no_char (by decide)
      (fun t ht => (goodTag_props (hgood t ht)).2.2.2.2.1)
  have hokJ : okEnds (joinWith (str ", ") tags) = true :=
    okEnds_joinTags htags hgood
  set J := joinWith (str ", ") tags with hJ
  have hshape : str "<? " ++ u ++ str ": " ++ J ++ str " ?>" =
      '<' :: '?' :: ((' ' :: u) ++ ':' :: (' ' :: (J ++ [' ', '?', '>']))) := by
    rw [show str "<? " = ['<', '?', ' '] from rfl,
      show str ": " = [':', ' '] from rfl,
      show str " ?>" = [' ', '?', '>'] from rfl]
    simp [List.append_assoc]
  rw [hshape]
  unfold matchMeta
  have hpre : (str "<?").isPrefixOf
      ('<' :: '?' :: ((' ' :: u) ++ ':' :: (' ' :: (J ++ [' ', '?', '>'])))) =
      true := by
    rw [show str "<?" = ['<', '?'] from rfl]
    simp [List.isPrefixOf]
  have hsuf : (str "?>").isSuffixOf
      ('<' :: '?' :: ((' ' :: u) ++ ':' :: (' ' :: (J ++ [' ', '?', '>'])))) =
      true := by
    rw [List.isSuffixOf_iff_suffix]
    refine ⟨'<' :: '?' :: ((' ' :: u) ++ ':' :: (' ' :: (J ++ [' ']))), ?_⟩
    rw [show str "?>" = ['?', '>'] from rfl]
    simp [List.append_assoc]
  rw [if_pos ⟨hpre, hsuf⟩]
  rw [show ('<' :: '?' ::
      ((' ' :: u) ++ ':' :: (' ' :: (J ++ [' ', '?', '>'])))).drop 2 =
      (' ' :: u) ++ ':' :: (' ' :: (J ++ [' ', '?', '>'])) from rfl]
  have ha : ':' ∉ ' ' :: u := by
    intro hm
    rcases List.mem_cons.mp hm with h | h
    · exact absurd h (by decide)
    · exact hu h
  have hb : ':' ∉ ' ' :: (J ++ [' ', '?', '>']) := by
    intro hm
    rcases List.mem_cons.mp hm with h | h
    · exact absurd h (by decide)
    · rcases List.mem_append.mp h with h' | h'
      · exact hJcolon h'
      · exact absurd h' (by decide)
  rw [findTagRest_unique_colon w pl (' ' :: u) (' ' :: (J ++ [' ', '?', '>']))
    hw hwne ha hb]
  cases hc : (w.isSuffixOf (' ' :: u) ||
      (pl && (w ++ ['s']).isSuffixOf (' ' :: u))) with
  | false =>
    simp
  | true =>
    have htake : (' ' :: (J ++ [' ', '?', '>'])).take
        ((' ' :: (J ++ [' ', '?', '>'])).length - 2) = ' ' :: (J ++ [' ']) := by
      have hlen : (' ' :: (J ++ [' ', '?', '>'])).length - 2 = J.length + 2 := by
        simp
      rw [hlen, List.take_succ_cons,
        show J ++ [' ', '?', '>'] = (J ++ [' ']) ++ ['?', '>'] by simp,
        List.take_left' (by simp)]
    have hext : extract_match (' ' :: (J ++ [' '])) = tags := by
      unfold extract_match
      rw [trimS_pad ' ' ' ' J (by decide) (by decide)
        (okEnds_head hokJ) (okEnds_last hokJ)]
      rw [replaceL_nomatch J hJsemi]
      rw [hJ, replace_join tags htags hJcomma,
        splitOnC_joinWith_comma tags htags hJcomma]
    simp only [if_true, Option.map_some']
    rw [htake, hext]

/-- `parse_metadata` on an emitted keywords line extends the keyword
list (the keyword pattern fires). -/
theorem parse_kwLine (nt : Note) (ks : List Str) (hne : ks ≠ [])
    (hgood : ∀ t ∈ ks, goodTag t = true) :
    parse_metadata nt
        (str "<? keywords: " ++ joinWith (str ", ") ks ++ str " ?>") =
      { nt with keywords := nt.keywords ++ ks } := by
  unfold parse_metadata
  rw [show (str "<? keywords: " : Str) =
    str "<? " ++ str "keywords" ++ str ": " from rfl]
  rw [matchMeta_metaLine (str "keyword") (str "keywords") true ks
    (by decide) (by decide) (by decide) hne hgood]
  rw [if_pos (by decide)]

/-- `parse_metadata` on an emitted speakers line extends the speaker
list (the keyword pattern misses, the speaker pattern fires). -/
theorem parse_spLine (nt : Note) (ss : List Str) (hne : ss ≠ [])
    (hgood : ∀ t ∈ ss, goodTag t = true) :
    parse_metadata nt
        (str "<? speakers: " ++ joinWith (str ", ") ss ++ str " ?>") =
      { nt with speakers := nt.speakers ++ ss } := by
  unfold parse_metadata
  rw [show (str "<? speakers: " : Str) =
    str "<? " ++ str "speakers" ++ str ": " from rfl]
  rw [matchMeta_metaLine (str "keyword") (str "speakers") true ss
    (by decide) (by decide) (by decide) hne hgood]
  rw [if_neg (by decide)]
  rw [matchMeta_metaLine (str "speaker") (str "speakers") true ss
    (by decide) (by decide) (by decide) hne hgood]
  rw [if_pos (by decide)]

/-- `parse_metadata` on an emitted present line extends the present
list (the keyword and speaker patterns miss, the present pattern
fires). -/
theorem parse_prLine (nt : Note) (ps : List Str) (hne : ps ≠ [])
    (hgood : ∀ t ∈ ps, goodTag t = true) :
    parse_metadata nt
        (str "<? present: " ++ joinWith (str ", ") ps ++ str " ?>") =
      { nt with present := nt.present ++ ps } := by
  unfold parse_metadata
  rw [show (str "<? present: " : Str) =
    str "<? " ++ str "present" ++ str ": " from rfl]
  rw [matchMeta_metaLine (str "keyword") (str "present") true ps
    (by decide) (by decide) (by decide) hne hgood]
  rw [if_neg (by decide)]
  rw [matchMeta_metaLine (str "speaker") (str "present") true ps
    (by decide) (by decide) (by decide) hne hgood]
  rw [if_neg (by decide)]
  rw [matchMeta_metaLine (str "present") (str "present") false ps
    (by decide) (by decide) (by decide) hne hgood]
  rw [if_pos (by decide)]

/-!
Evaluating one decoding step on each kind of emitted line.
-/

/-- A non-whitespace-headed prefix before strip-invariant text keeps the
whole line strip-invariant. -/
theorem trimS_prefixed (x : Char) (mid ph : Str)
    (hx : pySpace x = false)
    (hok : okEnds ph = true) (hne : ph ≠ []) :
    trimS ((x :: mid) ++ ph) = (x :: mid) ++ ph := by
  apply trimS_eq_self
  · intro c hc
    rw [List.cons_append, List.head?_cons] at hc
    injection hc with h
    rw [← h]
    exact hx
  · intro c hc
    rw [List.getLast?_append] at hc
    cases hpl : ph.getLast? with
    | none =>
      rw [List.getLast?_eq_none_iff] at hpl
      exact absurd hpl hne
    | some c' =>
      rw [hpl, Option.or_some] at hc
      injection hc with h
      rw [← h]
      exact okEnds_last hok c' hpl

theorem decodeLine_title (st : DecSt) (ph : Str)
    (hok : okEnds ph = true) (hne : ph ≠ []) :
    decodeLine st (str "# " ++ ph) =
      { st with
        note := { st.note with page_header := ph }
        body_lines := st.body_lines ++ [str "# " ++ ph] } := by
  have htr : trimS (str "# " ++ ph) = str "# " ++ ph := by
    rw [show (str "# " : Str) = '#' :: [' '] from rfl]
    exact trimS_prefixed '#' [' '] ph (by decide) hok hne
  have hpre : (str "# ").isPrefixOf (str "# " ++ ph) = true := by
    rw [List.isPrefixOf_iff_prefix]
    exact List.prefix_append _ _
  unfold decodeLine
  dsimp only
  rw [htr, if_pos hpre, show (str "# " ++ ph).drop 2 = ph from rfl]

theorem decodeLine_blank_out (st : DecSt) (hin : st.in_section = false) :
    decodeLine st [] = { st with body_lines := st.body_lines ++ [[]] } := by
  unfold decodeLine
  dsimp only
  rw [show trimS ([] : Str) = [] from rfl]
  rw [if_neg (by decide), if_neg (by decide), if_neg (by decide),
    if_neg (by rw [hin]; decide)]

theorem decodeLine_meta (st : DecSt) (rest : Str)
    (htr : trimS ('<' :: '?' :: rest) = '<' :: '?' :: rest) :
    decodeLine st ('<' :: '?' :: rest) =
      { st with
        note := parse_metadata st.note ('<' :: '?' :: rest)
        body_lines := st.body_lines ++ ['<' :: '?' :: rest] } := by
  have h1 : (str "# ").isPrefixOf ('<' :: '?' :: rest) = false := rfl
  have h2 : (str "<?").isPrefixOf ('<' :: '?' :: rest) = true := by
    rw [show (str "<?" : Str) = ['<', '?'] from rfl]
    simp [List.isPrefixOf]
  unfold decodeLine
  dsimp only
  rw [htr, if_neg (by rw [h1]; decide), if_pos h2]

theorem decodeLine_data (st : DecSt) (l : Str) (hin : st.in_section = true)
    (hgl : goodDataLine l = true) :
    decodeLine st l =
      { st with
        data := st.data ++ [l]
        body_lines := st.body_lines ++ [l] } := by
  obtain ⟨hok, h1, h2, h3⟩ : okEnds l = true ∧
      (str "# ").isPrefixOf l = false ∧ (str "<?").isPrefixOf l = false ∧
      (str "## ").isPrefixOf l = false := by
    unfold goodDataLine at hgl
    rw [Bool.and_eq_true, Bool.and_eq_true, Bool.and_eq_true] at hgl
    obtain ⟨⟨⟨a, b⟩, c⟩, d⟩ := hgl
    exact ⟨a, by simpa using b, by simpa using c, by simpa using d⟩
  unfold decodeLine
  dsimp only
  rw [trimS_of_okEnds hok, if_neg (by rw [h1]; decide),
    if_neg (by rw [h2]; decide), if_neg (by rw [h3]; decide), if_pos hin]

theorem decodeLine_header_in (st : DecSt) (h : Str)
    (hok : okEnds h = true) (hne : h ≠ []) (hin : st.in_section = true) :
    decodeLine st (str "## " ++ h) =
      { st with
        note := { st.note with
          sections := dictInsert st.note.sections st.section_header
            (mkSection st.section_header (joinNl st.data)) }
        section_header := h
        data := []
        body_lines := st.body_lines ++ [str "## " ++ h] } := by
  have htr : trimS (str "## " ++ h) = str "## " ++ h := by
    rw [show (str "## " : Str) = '#' :: ['#', ' '] from rfl]
    exact trimS_prefixed '#' ['#', ' '] h (by decide) hok hne
  have h1 : (str "# ").isPrefixOf (str "## " ++ h) = false := rfl
  have h2 : (str "<?").isPrefixOf (str "## " ++ h) = false := rfl
  have h3 : (str "## ").isPrefixOf (str "## " ++ h) = true := by
    rw [List.isPrefixOf_iff_prefix]
    exact List.prefix_append _ _
  have hdrop : trimS ((str "## " ++ h).drop 2) = h := by
    rw [show (str "## " ++ h).drop 2 = ' ' :: h from rfl]
    exact trimS_padL ' ' h (by decide) (okEnds_head hok) (okEnds_last hok)
  unfold decodeLine
  dsimp only
  rw [htr, if_neg (by rw [h1]; decide), if_neg (by rw [h2]; decide),
    if_pos h3, if_pos hin, hdrop]

theorem decodeLine_header_out (st : DecSt) (h : Str)
    (hok : okEnds h = true) (hne : h ≠ []) (hin : st.in_section = false) :
    decodeLine st (str "## " ++ h) =
      { st with
        in_section := true
        section_header := h
        data := []
        body_lines := st.body_lines ++ [str "## " ++ h] } := by
  have htr : trimS (str "## " ++ h) = str "## " ++ h := by
    rw [show (str "## " : Str) = '#' :: ['#', ' '] from rfl]
    exact trimS_prefixed '#' ['#', ' '] h (by decide) hok hne
  have h1 : (str "# ").isPrefixOf (str "## " ++ h) = false := rfl
  have h2 : (str "<?").isPrefixOf (str "## " ++ h) = false := rfl
  have h3 : (str "## ").isPrefixOf (str "## " ++ h) = true := by
    rw [List.isPrefixOf_iff_prefix]
    exact List.prefix_append _ _
  have hdrop : trimS ((str "## " ++ h).drop 2) = h := by
    rw [show (str "## " ++ h).drop 2 = ' ' :: h from rfl]
    exact trimS_padL ' ' h (by decide) (okEnds_head hok) (okEnds_last hok)
  unfold decodeLine
  dsimp only
  rw [htr, if_neg (by rw [h1]; decide), if_neg (by rw [h2]; decide),
    if_pos h3, if_neg (by rw [hin]; decide), hdrop]

/-!
Folding the decoder over whole phases of the emitted line stream.
-/

/-- Inside a section, a run of data lines (blank lines included) is
appended verbatim to the pending data accumulator. -/
theorem fold_data (ls : List Str) : ∀ (st : DecSt),
    st.in_section = true → (∀ l ∈ ls, goodDataLine l = true) →
    ls.foldl decodeLine st =
      { st with
        data := st.data ++ ls
        body_lines := st.body_lines ++ ls } := by
  induction ls with
  | nil =>
    intro st hin hls
    simp
  | cons l t ih =>
    intro st hin hls
    rw [List.foldl_cons, decodeLine_data st l hin (hls l (List.mem_cons_self ..))]
    rw [ih { st with
          data := st.data ++ [l]
          body_lines := st.body_lines ++ [l] }
      hin (fun l' hl' => hls l' (List.mem_cons_of_mem _ hl'))]
    simp [List.append_assoc]

/-- The line block that `to_markdown` emits for one stored section:
heading line, blank line, the data's own lines, and a trailing blank. -/
def blockOf (p : Str × Section) : List Str :=
  (str "## " ++ p.1) :: [] :: (splitOnC '\n' p.2.data ++ [[]])

/-- Decoding one section block while a previous section is pending:
the pending section is flushed into the note and the block becomes the
new pending section. -/
theorem fold_block_next (st : DecSt) (p : Str × Section)
    (hin : st.in_section = true) (hgp : goodSection p = true) :
    (blockOf p).foldl decodeLine st =
      { st with
        note := { st.note with
          sections := dictInsert st.note.sections st.section_header
            (mkSection st.section_header (joinNl st.data)) }
        section_header := p.1
        data := [] :: (splitOnC '\n' p.2.data ++ [[]])
        body_lines := st.body_lines ++ blockOf p } := by
  obtain ⟨hgn, hhdr, hgd⟩ := goodSection_props hgp
  obtain ⟨hne1, hok1, _⟩ := goodName_props hgn
  obtain ⟨hokd, hlines⟩ := goodData_props hgd
  unfold blockOf
  rw [List.foldl_cons, decodeLine_header_in st p.1 hok1 hne1 hin]
  rw [fold_data ([] :: (splitOnC '\n' p.2.data ++ [[]]))
    { st with
      note := { st.note with
        sections := dictInsert st.note.sections st.section_header
          (mkSection st.section_header (joinNl st.data)) }
      section_header := p.1
      data := []
      body_lines := st.body_lines ++ [str "## " ++ p.1] }
    hin (fun l hl => by
    rcases List.mem_cons.mp hl with h | h
    · rw [h]; decide
    · rcases List.mem_append.mp h with h' | h'
      · exact hlines l h'
      · rw [List.mem_singleton.mp h']; decide)]
  simp [List.append_assoc]

/-- Decoding the first section block (no section pending yet): the note
is untouched and the block becomes the pending section. -/
theorem fold_block_first (st : DecSt) (p : Str × Section)
    (hin : st.in_section = false) (hgp : goodSection p = true) :
    (blockOf p).foldl decodeLine st =
      { st with
        in_section := true
        section_header := p.1
        data := [] :: (splitOnC '\n' p.2.data ++ [[]])
        body_lines := st.body_lines ++ blockOf p } := by
  obtain ⟨hgn, hhdr, hgd⟩ := goodSection_props hgp
  obtain ⟨hne1, hok1, _⟩ := goodName_props hgn
  obtain ⟨hokd, hlines⟩ := goodData_props hgd
  unfold blockOf
  rw [List.foldl_cons, decodeLine_header_out st p.1 hok1 hne1 hin]
  rw [fold_data ([] :: (splitOnC '\n' p.2.data ++ [[]]))
    { st with
      in_section := true
      section_header := p.1
      data := []
      body_lines := st.body_lines ++ [str "## " ++ p.1] }
    rfl (fun l hl => by
    rcases List.mem_cons.mp hl with h | h
    · rw [h]; decide
    · rcases List.mem_append.mp h with h' | h'
      · exact hlines l h'
      · rw [List.mem_singleton.mp h']; decide)]
  simp [List.append_assoc]

/-- Python dict assignment with a fresh key appends the pair. -/
theorem dictInsert_fresh (m : List (Str × Section)) (k : Str) (v : Section)
    (h : m.any (fun p => p.1 == k) = false) :
    dictInsert m k v = m ++ [(k, v)] := by
  unfold dictInsert
  rw [h]
  simp

/-- Flushing a pending section block restores the original data: the
pad of blank lines around the data's own lines is stripped away by the
`Section` constructor. -/
theorem mkSection_block (h D : Str) (hD : okEnds D = true) :
    mkSection h (joinNl ([] :: (splitOnC '\n' D ++ [[]]))) = ⟨h, D⟩ := by
  unfold mkSection
  have h1 : joinNl ([] :: (splitOnC '\n' D ++ [[]])) =
      '\n' :: (D ++ ['\n']) := by
    unfold joinNl
    rw [joinWith_cons _ _ _ (by simp)]
    rw [joinWith_append_single _ _ _ (splitOnC_ne_nil _ _)]
    rw [show joinWith ['\n'] (splitOnC '\n' D) = joinNl (splitOnC '\n' D)
      from rfl]
    rw [joinNl_splitOnC]
    simp
  rw [h1, trimS_pad '\n' '\n' D (by decide) (by decide)
    (okEnds_head hD) (okEnds_last hD)]

/-- Flushing a well-formed pending block yields the stored section. -/
theorem flush_block (q : Str × Section) (hgq : goodSection q = true) :
    mkSection q.1 (joinNl ([] :: (splitOnC '\n' q.2.data ++ [[]]))) = q.2 := by
  obtain ⟨hgn, hhdr, hgd⟩ := goodSection_props hgq
  rw [mkSection_block q.1 q.2.data (goodData_props hgd).1]
  rw [← hhdr]

/-- Decoding a run of well-formed section blocks while a section is
pending: every block before the last is flushed in order with fresh
keys, and flushing the final pending block completes the original
section list. -/
theorem sec_fold : ∀ (secs : List (Str × Section)) (st : DecSt)
    (pend : Str × Section),
    st.in_section = true →
    (∀ p ∈ secs, goodSection p = true) →
    st.section_header = pend.1 →
    pend.1 ≠ [] →
    mkSection st.section_header (joinNl st.data) = pend.2 →
    (∀ k, (k = pend.1 ∨ k ∈ secs.map Prod.fst) →
      st.note.sections.any (fun q => q.1 == k) = false) →
    nodupKeys (pend :: secs) = true →
    ((secs.flatMap blockOf).foldl decodeLine st).in_section = true ∧
    ((secs.flatMap blockOf).foldl decodeLine st).note.page_header =
      st.note.page_header ∧
    ((secs.flatMap blockOf).foldl decodeLine st).note.keywords =
      st.note.keywords ∧
    ((secs.flatMap blockOf).foldl decodeLine st).note.present =
      st.note.present ∧
    ((secs.flatMap blockOf).foldl decodeLine st).note.speakers =
      st.note.speakers ∧
    ((secs.flatMap blockOf).foldl decodeLine st).section_header ≠ [] ∧
    dictInsert ((secs.flatMap blockOf).foldl decodeLine st).note.sections
      ((secs.flatMap blockOf).foldl decodeLine st).section_header
      (mkSection ((secs.flatMap blockOf).foldl decodeLine st).section_header
        (joinNl ((secs.flatMap blockOf).foldl decodeLine st).data)) =
      st.note.sections ++ pend :: secs := by
  intro secs
  induction secs with
  | nil =>
    intro st pend hin hgood hsh hshne hflush hfresh hnodup
    rw [List.flatMap_nil, List.foldl_nil]
    refine ⟨hin, rfl, rfl, rfl, rfl, ?_, ?_⟩
    · rw [hsh]; exact hshne
    · rw [hflush, hsh, dictInsert_fresh _ _ _ (hfresh pend.1 (Or.inl rfl))]
  | cons q rest ih =>
    intro st pend hin hgood hsh hshne hflush hfresh hnodup
    have hgq := hgood q (List.mem_cons_self q rest)
    obtain ⟨hgn, hhdr, hgd⟩ := goodSection_props hgq
    obtain ⟨hqne, hqok, hqnl⟩ := goodName_props hgn
    have h12 := hnodup
    rw [show nodupKeys (pend :: q :: rest) =
      (!((q :: rest).any (fun r => r.1 == pend.1)) && nodupKeys (q :: rest))
      from rfl] at h12
    rw [Bool.and_eq_true] at h12
    have hnd1 : (q :: rest).any (fun r => r.1 == pend.1) = false := by
      cases hb : (q :: rest).any (fun r => r.1 == pend.1) with
      | false => rfl
      | true =>
        have h := h12.1
        rw [hb] at h
        exact absurd h (by decide)
    have hnd2 : nodupKeys (q :: rest) = true := h12.2
    have hpne : ∀ r ∈ q :: rest, (r.1 == pend.1) = false := by
      intro r hr
      cases hrb : (r.1 == pend.1) with
      | false => rfl
      | true =>
        exfalso
        have hsome : (q :: rest).any (fun r => r.1 == pend.1) = true :=
          List.any_eq_true.mpr ⟨r, hr, hrb⟩
        rw [hnd1] at hsome
        exact absurd hsome (by decide)
    rw [List.flatMap_cons, List.foldl_append]
    rw [fold_block_next st q hin hgq]
    rw [hflush, hsh, dictInsert_fresh _ _ _ (hfresh pend.1 (Or.inl rfl))]
    have hfresh1 : ∀ k, (k = q.1 ∨ k ∈ rest.map Prod.fst) →
        (st.note.sections ++ [(pend.1, pend.2)]).any (fun r => r.1 == k) =
          false := by
      intro k hk
      rw [List.any_append]
      have h1 : st.note.sections.any (fun r => r.1 == k) = false := by
        apply hfresh k
        right
        rcases hk with h | h
        · rw [List.map_cons, h]
          exact List.mem_cons_self ..
        · rw [List.map_cons]
          exact List.mem_cons_of_mem _ h
      have h2 : ([(pend.1, pend.2)] : List (Str × Section)).any
          (fun r => r.1 == k) = false := by
        simp only [List.any_cons, List.any_nil, Bool.or_false]
        show (pend.1 == k) = false
        rcases hk with h | h
        · have hd := hpne q (List.mem_cons_self ..)
          rw [h]
          rw [beq_eq_false_iff_ne] at hd ⊢
          exact fun hEq => hd hEq.symm
        · obtain ⟨r, hr, hrk⟩ := List.mem_map.mp h
          have hd := hpne r (List.mem_cons_of_mem _ hr)
          rw [← hrk]
          rw [beq_eq_false_iff_ne] at hd ⊢
          exact fun hEq => hd hEq.symm
      rw [h1, h2]
      rfl
    have hres := ih
      { st with
        note := { st.note with
          sections := st.note.sections ++ [(pend.1, pend.2)] }
        section_header := q.1
        data := [] :: (splitOnC '\n' q.2.data ++ [[]])
        body_lines := st.body_lines ++ blockOf q }
      q hin (fun p hp => hgood p (List.mem_cons_of_mem _ hp)) rfl hqne
      (flush_block q hgq) hfresh1 hnd2
    refine ⟨hres.1, ?_, ?_, ?_, ?_, hres.2.2.2.2.2.1, ?_⟩
    · exact hres.2.1
    · exact hres.2.2.1
    · exact hres.2.2.2.1
    · exact hres.2.2.2.2.1
    · exact hres.2.2.2.2.2.2.trans (by simp)

theorem wfNote_props {n : Note} (h : wfNote n = true) :
    goodName n.page_header = true ∧
    (∀ t ∈ n.keywords, goodTag t = true) ∧
    (∀ t ∈ n.present, goodTag t = true) ∧
    (∀ t ∈ n.speakers, goodTag t = true) ∧
    (∀ p ∈ n.sections, goodSection p = true) ∧
    nodupKeys n.sections = true := by
  unfold wfNote at h
  rw [Bool.and_eq_true, Bool.and_eq_true, Bool.and_eq_true, Bool.and_eq_true,
    Bool.and_eq_true] at h
  obtain ⟨⟨⟨⟨⟨h1, h2⟩, h3⟩, h4⟩, h5⟩, h6⟩ := h
  rw [List.all_eq_true] at h2 h3 h4 h5
  exact ⟨h1, h2, h3, h4, h5, h6⟩

/-- Strip-invariance from the two end characters. -/
theorem trimS_ends (s : Str) (a b : Char)
    (ha : pySpace a = false) (hb : pySpace b = false)
    (hh : s.head? = some a) (hl : s.getLast? = some b) : trimS s = s := by
  apply trimS_eq_self
  · intro c hc
    rw [hh] at hc
    injection hc with h
    rw [← h]
    exact ha
  · intro c hc
    rw [hl] at hc
    injection hc with h
    rw [← h]
    exact hb

/-- No newline enters an emitted metadata line. -/
theorem no_nl_metaLine {tags : List Str} (pre : Str) (hpre : '\n' ∉ pre)
    (hgood : ∀ t ∈ tags, goodTag t = true) :
    '\n' ∉ pre ++ joinWith (str ", ") tags ++ str " ?>" := by
  intro hm
  rcases List.mem_append.mp hm with h | h
  · rcases List.mem_append.mp h with h' | h'
    · exact hpre h'
    · exact joinTags_no_char (by decide)
        (fun t ht => (goodTag_props (hgood t ht)).2.2.2.2.2.2) h'
  · exact absurd h (by decide)

/-- An emitted metadata line is strip-invariant: it starts with `<` and
ends with `>`. -/
theorem trimS_metaLine (pre : Str) (tags : List Str)
    (hhd : ∀ J : Str, (pre ++ J ++ str " ?>").head? = some '<') :
    trimS (pre ++ joinWith (str ", ") tags ++ str " ?>") =
      pre ++ joinWith (str ", ") tags ++ str " ?>" := by
  apply trimS_ends _ '<' '>' (by decide) (by decide) (hhd _)
  rw [List.getLast?_append]
  rw [show (str " ?>").getLast? = some '>' from by decide]
  rw [Option.or_some]

/-- Splitting newline-free lines is the identity. -/
theorem flatMap_split_id (ml : List Str) (h : ∀ l ∈ ml, '\n' ∉ l) :
    ml.flatMap (splitOnC '\n') = ml := by
  induction ml with
  | nil => rfl
  | cons l t ih =>
    rw [List.flatMap_cons, splitOnC_of_not_mem (h l (List.mem_cons_self l t)),
      ih (fun l' hl' => h l' (List.mem_cons_of_mem _ hl'))]
    rfl

/-- The newline-split of the section part of the emitted markdown is
the concatenation of the per-section line blocks. -/
theorem sections_split (secs : List (Str × Section))
    (hgood : ∀ p ∈ secs, goodSection p = true) :
    (secs.flatMap (fun p => [Section.to_markdown p.2, []])).flatMap
        (splitOnC '\n') =
      secs.flatMap blockOf := by
  induction secs with
  | nil => rfl
  | cons q rest ih =>
    obtain ⟨hgn, hhdr, hgd⟩ := goodSection_props (hgood q (List.mem_cons_self q rest))
    obtain ⟨hqne, hqok, hqnl⟩ := goodName_props hgn
    rw [List.flatMap_cons, List.flatMap_append,
      ih (fun p hp => hgood p (List.mem_cons_of_mem _ hp)),
      List.flatMap_cons]
    congr 1
    have hmd : Section.to_markdown q.2 =
        (str "## " ++ q.1) ++ '\n' :: ([] ++ '\n' :: q.2.data) := by
      unfold Section.to_markdown
      rw [hhdr, trimS_of_okEnds (goodData_props hgd).1,
        show (str "\n\n" : Str) = ['\n', '\n'] from rfl]
      simp
    have hnl : '\n' ∉ str "## " ++ q.1 := by
      intro hm
      rcases List.mem_append.mp hm with h | h
      · exact absurd h (by decide)
      · exact hqnl h
    rw [show (([[]] : List Str).flatMap (splitOnC '\n')) = [[]] from rfl]
    rw [hmd, splitOnC_append_sep, splitOnC_append_sep,
      splitOnC_of_not_mem hnl]
    unfold blockOf
    rw [show splitOnC '\n' ([] : Str) = [[]] from rfl]
    simp

/-- The metadata lines emitted by `to_markdown` (one per non-empty tag
list). -/
def metaPart (n : Note) : List Str :=
  (if n.keywords.length > 0 then
    [str "<? keywords: " ++ joinWith (str ", ") n.keywords ++ str " ?>"]
   else [])
  ++ (if n.present.length > 0 then
    [str "<? present: " ++ joinWith (str ", ") n.present ++ str " ?>"]
   else [])
  ++ (if n.speakers.length > 0 then
    [str "<? speakers: " ++ joinWith (str ", ") n.speakers ++ str " ?>"]
   else [])

/-- The emitted lines preceding the section blocks: title line, blank,
metadata lines, blank. -/
def preLines (n : Note) : List Str :=
  (str "# " ++ n.page_header) :: [] :: (metaPart n ++ [[]])

/-- The note contents recovered from the pre-section lines. -/
def decNoteMeta (n : Note) : Note :=
  { emptyNote with
    page_header := n.page_header
    keywords := n.keywords
    present := n.present
    speakers := n.speakers }

/-- The decoder state after the pre-section lines. -/
def preSt (n : Note) : DecSt :=
  { note := decNoteMeta n
    in_section := false
    data := []
    section_header := []
    body_lines := preLines n }

/-- An emitted metadata line is strip-invariant and starts with `<?`. -/
theorem metaLine_props (pre2 : Str) (tags : List Str) :
    trimS (('<' :: '?' :: pre2) ++ joinWith (str ", ") tags ++ str " ?>") =
      ('<' :: '?' :: pre2) ++ joinWith (str ", ") tags ++ str " ?>" ∧
    ∃ rest, ('<' :: '?' :: pre2) ++ joinWith (str ", ") tags ++ str " ?>" =
      '<' :: '?' :: rest := by
  constructor
  · apply trimS_ends _ '<' '>' (by decide) (by decide)
    · rfl
    · rw [List.getLast?_append,
        show (str " ?>").getLast? = some '>' from by decide, Option.or_some]
  · refine ⟨(pre2 ++ joinWith (str ", ") tags) ++ str " ?>", ?_⟩
    simp

/-- Outside a section, a run of metadata lines only threads the note
through `parse_metadata`. -/
theorem fold_meta (ml : List Str) : ∀ (st : DecSt),
    (∀ l ∈ ml, trimS l = l ∧ ∃ rest, l = '<' :: '?' :: rest) →
    ml.foldl decodeLine st =
      { st with
        note := ml.foldl parse_metadata st.note
        body_lines := st.body_lines ++ ml } := by
  induction ml with
  | nil =>
    intro st hml
    simp
  | cons l t ih =>
    intro st hml
    obtain ⟨htr, rest, hrest⟩ := hml l (List.mem_cons_self l t)
    subst hrest
    rw [List.foldl_cons, decodeLine_meta st rest htr]
    rw [ih { st with
        note := parse_metadata st.note ('<' :: '?' :: rest)
        body_lines := st.body_lines ++ ['<' :: '?' :: rest] }
      (fun l' hl' => hml l' (List.mem_cons_of_mem _ hl'))]
    simp [List.foldl_cons, List.append_assoc]

theorem parse_fold_kw (n : Note) (hkw : ∀ t ∈ n.keywords, goodTag t = true) :
    ∀ nt : Note,
    (if n.keywords.length > 0 then
        [str "<? keywords: " ++ joinWith (str ", ") n.keywords ++ str " ?>"]
      else []).foldl parse_metadata nt =
      { nt with keywords := nt.keywords ++ n.keywords } := by
  intro nt
  by_cases hc : n.keywords.length > 0
  · rw [if_pos hc]
    rw [show ([str "<? keywords: " ++ joinWith (str ", ") n.keywords ++
        str " ?>"] : List Str).foldl parse_metadata nt =
      parse_metadata nt (str "<? keywords: " ++
        joinWith (str ", ") n.keywords ++ str " ?>") from rfl]
    exact parse_kwLine nt n.keywords (List.length_pos.mp hc) hkw
  · rw [if_neg hc]
    have hnil : n.keywords = [] := by
      cases hk : n.keywords with
      | nil => rfl
      | cons a t =>
        rw [hk] at hc
        exact absurd (by simp) hc
    rw [hnil]
    simp

theorem parse_fold_pr (n : Note) (hpr : ∀ t ∈ n.present, goodTag t = true) :
    ∀ nt : Note,
    (if n.present.length > 0 then
        [str "<? present: " ++ joinWith (str ", ") n.present ++ str " ?>"]
      else []).foldl parse_metadata nt =
      { nt with present := nt.present ++ n.present } := by
  intro nt
  by_cases hc : n.present.length > 0
  · rw [if_pos hc]
    rw [show ([str "<? present: " ++ joinWith (str ", ") n.present ++
        str " ?>"] : List Str).foldl parse_metadata nt =
      parse_metadata nt (str "<? present: " ++
        joinWith (str ", ") n.present ++ str " ?>") from rfl]
    exact parse_prLine nt n.present (List.length_pos.mp hc) hpr
  · rw [if_neg hc]
    have hnil : n.present = [] := by
      cases hk : n.present with
      | nil => rfl
      | cons a t =>
        rw [hk] at hc
        exact absurd (by simp) hc
    rw [hnil]
    simp

theorem parse_fold_sp (n : Note) (hsp : ∀ t ∈ n.speakers, goodTag t = true) :
    ∀ nt : Note,
    (if n.speakers.length > 0 then
        [str "<? speakers: " ++ joinWith (str ", ") n.speakers ++ str " ?>"]
      else []).foldl parse_metadata nt =
      { nt with speakers := nt.speakers ++ n.speakers } := by
  intro nt
  by_cases hc : n.speakers.length > 0
  · rw [if_pos hc]
    rw [show ([str "<? speakers: " ++ joinWith (str ", ") n.speakers ++
        str " ?>"] : List Str).foldl parse_metadata nt =
      parse_metadata nt (str "<? speakers: " ++
        joinWith (str ", ") n.speakers ++ str " ?>") from rfl]
    exact parse_spLine nt n.speakers (List.length_pos.mp hc) hsp
  · rw [if_neg hc]
    have hnil : n.speakers = [] := by
      cases hk : n.speakers with
      | nil => rfl
      | cons a t =>
        rw [hk] at hc
        exact absurd (by simp) hc
    rw [hnil]
    simp

theorem finishNote_no_section (st : DecSt) (h : st.section_header = []) :
    finishNote st = { st.note with body_ := joinNl st.body_lines } := by
  unfold finishNote
  rw [h]
  rw [if_neg (fun hc => hc rfl)]

theorem finishNote_flush (st : DecSt) (h : st.section_header ≠ []) :
    finishNote st =
      { { st.note with
          sections := dictInsert st.note.sections st.section_header
            (mkSection st.section_header (joinNl st.data)) } with
        body_ := joinNl st.body_lines } := by
  unfold finishNote
  rw [if_pos h]

/-- The newline-split of the emitted markdown of a well-formed note:
title line, blank, metadata lines, blank, then the section blocks. -/
theorem split_to_markdown (n : Note) (hwf : wfNote n = true) :
    splitOnC '\n' n.to_markdown = preLines n ++ n.sections.flatMap blockOf := by
  obtain ⟨hph, hkw, hpr, hsp, hsec, hnd⟩ := wfNote_props hwf
  obtain ⟨hphne, hphok, hphnl⟩ := goodName_props hph
  unfold Note.to_markdown
  unfold joinNl
  have hne : ([str "# " ++ n.page_header ++ ['\n']]
      ++ (if n.keywords.length > 0 then
        [str "<? keywords: " ++ joinWith (str ", ") n.keywords ++ str " ?>"]
       else [])
      ++ (if n.present.length > 0 then
        [str "<? present: " ++ joinWith (str ", ") n.present ++ str " ?>"]
       else [])
      ++ (if n.speakers.length > 0 then
        [str "<? speakers: " ++ joinWith (str ", ") n.speakers ++ str " ?>"]
       else [])
      ++ [[]]
      ++ n.sections.flatMap (fun p => [Section.to_markdown p.2, []])) ≠
        [] := by
    simp
  rw [splitOnC_joinWith '\n' _ hne]
  rw [List.flatMap_append, List.flatMap_append, List.flatMap_append,
    List.flatMap_append, List.flatMap_append]
  have h1 : ([str "# " ++ n.page_header ++ ['\n']] : List Str).flatMap
      (splitOnC '\n') = [str "# " ++ n.page_header, []] := by
    rw [List.flatMap_cons, List.flatMap_nil, List.append_nil]
    rw [show str "# " ++ n.page_header ++ ['\n'] =
      (str "# " ++ n.page_header) ++ '\n' :: [] from by simp]
    rw [splitOnC_append_sep]
    rw [splitOnC_of_not_mem (show '\n' ∉ str "# " ++ n.page_header from by
      intro hm
      rcases List.mem_append.mp hm with h | h
      · exact absurd h (by decide)
      · exact hphnl h)]
    rfl
  have h2 : ((if n.keywords.length > 0 then
      [str "<? keywords: " ++ joinWith (str ", ") n.keywords ++ str " ?>"]
     else ([] : List Str))).flatMap (splitOnC '\n') =
      (if n.keywords.length > 0 then
        [str "<? keywords: " ++ joinWith (str ", ") n.keywords ++ str " ?>"]
       else []) := by
    apply flatMap_split_id
    intro l hl
    by_cases hc : n.keywords.length > 0
    · rw [if_pos hc] at hl
      rw [List.mem_singleton.mp hl]
      exact no_nl_metaLine (str "<? keywords: ") (by decide) hkw
    · rw [if_neg hc] at hl
      cases hl
  have h3 : ((if n.present.length > 0 then
      [str "<? present: " ++ joinWith (str ", ") n.present ++ str " ?>"]
     else ([] : List Str))).flatMap (splitOnC '\n') =
      (if n.present.length > 0 then
        [str "<? present: " ++ joinWith (str ", ") n.present ++ str " ?>"]
       else []) := by
    apply flatMap_split_id
    intro l hl
    by_cases hc : n.present.length > 0
    · rw [if_pos hc] at hl
      rw [List.mem_singleton.mp hl]
      exact no_nl_metaLine (str "<? present: ") (by decide) hpr
    · rw [if_neg hc] at hl
      cases hl
  have h4 : ((if n.speakers.length > 0 then
      [str "<? speakers: " ++ joinWith (str ", ") n.speakers ++ str " ?>"]
     else ([] : List Str))).flatMap (splitOnC '\n') =
      (if n.speakers.length > 0 then
        [str "<? speakers: " ++ joinWith (str ", ") n.speakers ++ str " ?>"]
       else []) := by
    apply flatMap_split_id
    intro l hl
    by_cases hc : n.speakers.length > 0
    · rw [if_pos hc] at hl
      rw [List.mem_singleton.mp hl]
      exact no_nl_metaLine (str "<? speakers: ") (by decide) hsp
    · rw [if_neg hc] at hl
      cases hl
  rw [h1, h2, h3, h4,
    show (([[]] : List Str).flatMap (splitOnC '\n')) = [[]] from rfl,
    sections_split n.sections hsec]
  unfold preLines metaPart
  simp [List.append_assoc]

/-- Decoding the pre-section lines from the initial state restores the
title and the three tag lists. -/
theorem pre_fold (n : Note) (hwf : wfNote n = true) :
    (preLines n).foldl decodeLine initDecSt = preSt n := by
  obtain ⟨hph, hkw, hpr, hsp, hsec, hnd⟩ := wfNote_props hwf
  obtain ⟨hphne, hphok, hphnl⟩ := goodName_props hph
  have hml : ∀ l ∈ metaPart n,
      trimS l = l ∧ ∃ rest, l = '<' :: '?' :: rest := by
    intro l hl
    unfold metaPart at hl
    rcases List.mem_append.mp hl with h | h
    · rcases List.mem_append.mp h with h' | h'
      · by_cases hc : n.keywords.length > 0
        · rw [if_pos hc] at h'
          rw [List.mem_singleton.mp h',
            show (str "<? keywords: " : Str) =
              '<' :: '?' :: str " keywords: " from rfl]
          exact metaLine_props (str " keywords: ") n.keywords
        · rw [if_neg hc] at h'
          cases h'
      · by_cases hc : n.present.length > 0
        · rw [if_pos hc] at h'
          rw [List.mem_singleton.mp h',
            show (str "<? present: " : Str) =
              '<' :: '?' :: str " present: " from rfl]
          exact metaLine_props (str " present: ") n.present
        · rw [if_neg hc] at h'
          cases h'
    · by_cases hc : n.speakers.length > 0
      · rw [if_pos hc] at h
        rw [List.mem_singleton.mp h,
          show (str "<? speakers: " : Str) =
            '<' :: '?' :: str " speakers: " from rfl]
        exact metaLine_props (str " speakers: ") n.speakers
      · rw [if_neg hc] at h
        cases h
  have hnt3 : (metaPart n).foldl parse_metadata
      { emptyNote with page_header := n.page_header } = decNoteMeta n := by
    unfold metaPart
    rw [List.foldl_append, List.foldl_append]
    rw [parse_fold_kw n hkw, parse_fold_pr n hpr, parse_fold_sp n hsp]
    unfold decNoteMeta
    simp [emptyNote]
  have e1 : decodeLine initDecSt (str "# " ++ n.page_header) =
      { note := { emptyNote with page_header := n.page_header }
        in_section := false
        data := []
        section_header := []
        body_lines := [str "# " ++ n.page_header] } :=
    decodeLine_title initDecSt n.page_header hphok hphne
  have e2 : decodeLine
      { note := { emptyNote with page_header := n.page_header }
        in_section := false
        data := []
        section_header := []
        body_lines := [str "# " ++ n.page_header] } [] =
      { note := { emptyNote with page_header := n.page_header }
        in_section := false
        data := []
        section_header := []
        body_lines := [str "# " ++ n.page_header, []] } :=
    decodeLine_blank_out _ rfl
  have e3 : (metaPart n).foldl decodeLine
      { note := { emptyNote with page_header := n.page_header }
        in_section := false
        data := []
        section_header := []
        body_lines := [str "# " ++ n.page_header, []] } =
      { note := decNoteMeta n
        in_section := false
        data := []
        section_header := []
        body_lines := [str "# " ++ n.page_header, []] ++ metaPart n } := by
    rw [fold_meta (metaPart n) _ hml]
    dsimp only
    rw [hnt3]
  have e4 : decodeLine
      { note := decNoteMeta n
        in_section := false
        data := []
        section_header := []
        body_lines := [str "# " ++ n.page_header, []] ++ metaPart n } [] =
      preSt n :=
    decodeLine_blank_out _ rfl
  show ((str "# " ++ n.page_header) :: [] :: (metaPart n ++ [[]])).foldl
    decodeLine initDecSt = preSt n
  rw [List.foldl_cons, e1, List.foldl_cons, e2, List.foldl_append, e3,
    List.foldl_cons, List.foldl_nil, e4]

/-- A counterexample note for the unrestricted round-trip claim: a
keyword containing a comma. -/
def c1Note : Note :=
  { emptyNote with
    page_header := str "t"
    keywords := [str "a,b"] }

/-- A well-formed witness note exercising every codec feature. -/
def c1wf : Note :=
  { emptyNote with
    page_header := str "t"
    keywords := [str "k1", str "k2"]
    present := [str "bob"]
    speakers := [str "alice"]
    sections := [(str "h1", ⟨str "h1", str "line1"⟩),
                 (str "h2", ⟨str "h2", str "a\nb"⟩)] }

/-!
## Claim theorems
-/

/-- Claim C1 is false as stated (see `claim1_counterexample`: a comma
inside a keyword splits it in two on the way back).  Amended claim: for
every well-formed note — non-empty strip-invariant title, tags free of
`, ; : ?` and newlines, section headings and data that survive the
per-line stripping and are not re-categorised, distinct section keys —
decoding the emitted markdown restores the title, the keyword, present
and speaker lists, and the section dictionary exactly. -/
theorem claim1_roundtrip (n : Note) (hwf : wfNote n = true) :
    (create_note_from_markdown (Note.to_markdown n)).page_header =
      n.page_header ∧
    (create_note_from_markdown (Note.to_markdown n)).keywords = n.keywords ∧
    (create_note_from_markdown (Note.to_markdown n)).present = n.present ∧
    (create_note_from_markdown (Note.to_markdown n)).speakers = n.speakers ∧
    (create_note_from_markdown (Note.to_markdown n)).sections = n.sections := by
  obtain ⟨hph, hkw, hpr, hsp, hsec, hnd⟩ := wfNote_props hwf
  unfold create_note_from_markdown
  rw [split_to_markdown n hwf, List.foldl_append, pre_fold n hwf]
  cases hsecs : n.sections with
  | nil =>
    rw [List.flatMap_nil, List.foldl_nil]
    rw [finishNote_no_section (preSt n) rfl]
    exact ⟨rfl, rfl, rfl, rfl, rfl⟩
  | cons q rest =>
    rw [hsecs] at hsec hnd
    rw [List.flatMap_cons, List.foldl_append]
    rw [fold_block_first (preSt n) q rfl (hsec q (List.mem_cons_self q rest))]
    have hres := sec_fold rest
      { preSt n with
        in_section := true
        section_header := q.1
        data := [] :: (splitOnC '\n' q.2.data ++ [[]])
        body_lines := (preSt n).body_lines ++ blockOf q }
      q rfl (fun p hp => hsec p (List.mem_cons_of_mem _ hp)) rfl
      (goodName_props
        (goodSection_props (hsec q (List.mem_cons_self q rest))).1).1
      (flush_block q (hsec q (List.mem_cons_self q rest)))
      (fun k hk => rfl)
      hnd
    have hne2 := hres.2.2.2.2.2.1
    rw [finishNote_flush _ hne2]
    exact ⟨hres.2.1, hres.2.2.1, hres.2.2.2.1, hres.2.2.2.2.1,
      hres.2.2.2.2.2.2⟩

/-- Claim C1 counterexample: the alleged unconditional round trip fails
on a note whose single keyword `"a,b"` contains a comma — decoding the
emitted markdown yields the two keywords `"a"` and `"b"`. -/
theorem claim1_counterexample :
    (create_note_from_markdown (Note.to_markdown c1Note)).keywords ≠
      c1Note.keywords ∧
    (create_note_from_markdown (Note.to_markdown c1Note)).keywords =
      [str "a", str "b"] := by decide

theorem claim1_witness :
    wfNote c1wf = true ∧
    ((create_note_from_markdown (Note.to_markdown c1wf)).page_header =
        c1wf.page_header ∧
      (create_note_from_markdown (Note.to_markdown c1wf)).keywords =
        c1wf.keywords ∧
      (create_note_from_markdown (Note.to_markdown c1wf)).present =
        c1wf.present ∧
      (create_note_from_markdown (Note.to_markdown c1wf)).speakers =
        c1wf.speakers ∧
      (create_note_from_markdown (Note.to_markdown c1wf)).sections =
        c1wf.sections) :=
  ⟨by decide, claim1_roundtrip c1wf (by decide)⟩

/-- Claim C6 (codec totality): decoding is a total function — for every
input string, `create_note_from_markdown` returns a `Note`, and on the
degenerate input (the empty string) that note has an empty title, no
tags, and no sections. -/
theorem claim6_codec_total :
    (∀ s : Str, ∃ n : Note, create_note_from_markdown s = n) ∧
    (create_note_from_markdown []).page_header = [] ∧
    (create_note_from_markdown []).keywords = [] ∧
    (create_note_from_markdown []).present = [] ∧
    (create_note_from_markdown []).speakers = [] ∧
    (create_note_from_markdown []).sections = [] :=
  ⟨fun s => ⟨create_note_from_markdown s, rfl⟩, by decide, by decide,
   by decide, by decide, by decide⟩

/-- Claim C9 is false as stated: for the one-line input `"hello"` the
verbatim accumulation of the input lines is `"hello"`, but the
whole-document body accessor returns something else (the re-encoded
markdown `"# \n\n"`). -/
theorem claim9_counterexample :
    (create_note_from_markdown (str "hello")).body ≠ str "hello" := by
  decide

/-- Claim C9, amended: after decoding, the `body` accessor returns the
*re-encoded* markdown (`to_markdown`); the accumulation of the input
lines — each line stripped, not verbatim — is stored only in the private
`_body` field, which the accessor never reads. -/
theorem claim9_body_accessor (s : Str) :
    (create_note_from_markdown s).body = (create_note_from_markdown s).to_markdown ∧
    (create_note_from_markdown s).body_ =
      joinNl ((splitOnC '\n' s).map trimS) := by
  refine ⟨rfl, ?_⟩
  simp [create_note_from_markdown, finishNote_body_, foldl_decode_body_lines,
    initDecSt]

/-- Claim C4 is false as stated: the filename heuristic concatenates
*all* numeric tokens, so `"2022-bob-20220201-meeting.md"` does not yield
the keyword `"20220201"`. -/
theorem claim4_counterexample :
    ¬ (str "20220201") ∈
      extract_metadata_keywords (str "2022-bob-20220201-meeting.md") := by
  decide

/-- Claim C4, amended: on `"2022-bob-20220201-meeting.md"` the heuristic
yields the date string `"202220220201"` (the concatenation of the numeric
tokens `"2022"` and `"20220201"`, in order) together with the joined
non-numeric keyword `"bob meeting"`. -/
theorem claim4_amended :
    extract_metadata_keywords (str "2022-bob-20220201-meeting.md") =
      [str "202220220201", str "bob meeting"] := by
  decide

/-- Claim C10 (watcher-table validity invariant): adding an invalid
filename leaves the table (and hence its entry count) unchanged, and
`add_note`/`drop_note` preserve the invariant that every stored filename
passes `valid_note`. -/
theorem claim10_table_validity (t : MonitoredNoteTable) (fn : Str) (now : Int) :
    (valid_note fn = false →
      t.add_note fn now = t ∧ (t.add_note fn now).count = t.count) ∧
    (tableInv t = true → tableInv (t.add_note fn now) = true) ∧
    (tableInv t = true → tableInv (t.drop_note fn) = true) := by
  refine ⟨fun hinv => ?_, fun hinv => ?_, fun hinv => ?_⟩
  · unfold MonitoredNoteTable.add_note
    rw [hinv]
    simp
  · unfold MonitoredNoteTable.add_note
    split
    case isFalse => exact hinv
    case isTrue hv =>
      unfold tableInv dictUpd at *
      split
      · simp only [List.all_eq_true] at *
        intro p hp
        rcases List.mem_map.mp hp with ⟨q, hq, hpq⟩
        subst hpq
        split
        · exact hv
        · exact hinv q hq
      · simp only [List.all_eq_true] at *
        intro p hp
        rcases List.mem_append.mp hp with h | h
        · exact hinv p h
        · simp only [List.mem_singleton] at h
          subst h
          exact hv
  · unfold tableInv MonitoredNoteTable.drop_note at *
    simp only [List.all_eq_true] at *
    intro p hp
    exact hinv p (List.mem_of_mem_filter hp)

/-- Witness for claim C10 at concrete inputs. -/
theorem claim10_witness :
    (valid_note (str "#lock.md") = false ∧
      ((⟨[(str "a.md", 3)]⟩ : MonitoredNoteTable).add_note (str "#lock.md") 7 =
          ⟨[(str "a.md", 3)]⟩ ∧
        (((⟨[(str "a.md", 3)]⟩ : MonitoredNoteTable).add_note
            (str "#lock.md") 7).count =
          (⟨[(str "a.md", 3)]⟩ : MonitoredNoteTable).count))) ∧
    (tableInv ⟨[(str "a.md", 3)]⟩ = true ∧
      tableInv ((⟨[(str "a.md", 3)]⟩ : MonitoredNoteTable).add_note
          (str "b.md") 7) = true) :=
  ⟨⟨by decide,
    (claim10_table_validity ⟨[(str "a.md", 3)]⟩ (str "#lock.md") 7).1 (by decide)⟩,
   ⟨by decide,
    (claim10_table_validity ⟨[(str "a.md", 3)]⟩ (str "b.md") 7).2.1 (by decide)⟩⟩

/-- Claim C2 (uniqueness of `(filename, timestamp)`): `add_note` signals
`OverwriteAttemptError` exactly when a row with the note's `(filename,
timestamp)` pair is already stored, and in that case the store is
unchanged; with the same filename but a different timestamp the second
insert succeeds and creates a second, independent row (distinct ids, both
rows present). -/
theorem claim2_add_note_uniqueness (db : DBState) (n1 n2 : Note) :
    ((add_note db n1).2 = none ↔
      already_stored db n1.filename n1.timestamp = true) ∧
    (already_stored db n1.filename n1.timestamp = true →
      (add_note db n1).1 = db) ∧
    (already_stored db n1.filename n1.timestamp = false →
      n2.filename = n1.filename →
      n2.timestamp ≠ n1.timestamp →
      already_stored db n2.filename n2.timestamp = false →
      ∃ id1 id2, id1 ≠ id2 ∧
        (add_note db n1).2 = some id1 ∧
        (add_note (add_note db n1).1 n2).2 = some id2 ∧
        (∃ r1 ∈ (add_note (add_note db n1).1 n2).1.notes,
          r1.id = id1 ∧ r1.filename = n1.filename ∧ r1.timestamp = n1.timestamp) ∧
        (∃ r2 ∈ (add_note (add_note db n1).1 n2).1.notes,
          r2.id = id2 ∧ r2.filename = n2.filename ∧ r2.timestamp = n2.timestamp)) := by
  refine ⟨?_, ?_, ?_⟩
  · unfold add_note
    split <;> simp_all
  · intro h
    simp [add_note, h]
  · intro h1 hfn hts h2
    have hnotes1 : (add_note db n1).1.notes =
        db.notes ++
          [⟨db.notes.length + 1, n1.filename, n1.timestamp, n1.to_markdown⟩] := by
      simp [add_note, h1]
    have hid1 : (add_note db n1).2 = some (db.notes.length + 1) := by
      simp [add_note, h1]
    set db1 := (add_note db n1).1 with hdb1
    have h2' : already_stored db1 n2.filename n2.timestamp = false := by
      unfold already_stored at h2 ⊢
      rw [hnotes1, List.any_append]
      simp only [Bool.or_eq_false_iff]
      refine ⟨h2, ?_⟩
      simp [hfn]
      intro h
      exact absurd h.symm hts
    have hnotes2 : (add_note db1 n2).1.notes =
        db1.notes ++
          [⟨db1.notes.length + 1, n2.filename, n2.timestamp,
            n2.to_markdown⟩] := by
      simp [add_note, h2']
    have hid2 : (add_note db1 n2).2 = some (db1.notes.length + 1) := by
      simp [add_note, h2']
    refine ⟨db.notes.length + 1, db1.notes.length + 1, ?_,
      hid1, hid2, ?_, ?_⟩
    · rw [hnotes1]
      simp
    · refine ⟨⟨db.notes.length + 1, n1.filename, n1.timestamp,
        n1.to_markdown⟩, ?_, rfl, rfl, rfl⟩
      rw [hnotes2, hnotes1]
      simp
    · refine ⟨⟨db1.notes.length + 1, n2.filename, n2.timestamp,
        n2.to_markdown⟩, ?_, rfl, rfl, rfl⟩
      rw [hnotes2]
      simp

/-- The two notes used as the claim C2 witness: same filename, different
timestamps. -/
def c2NoteA : Note :=
  { emptyNote with page_header := str "one", filename := str "a.md", timestamp := 1 }

/-- The second claim C2 witness note. -/
def c2NoteB : Note :=
  { emptyNote with page_header := str "one", filename := str "a.md", timestamp := 2 }

/-- Witness for claim C2 at concrete inputs. -/
theorem claim2_witness :
    already_stored emptyDB c2NoteA.filename c2NoteA.timestamp = false ∧
    (∃ id1 id2, id1 ≠ id2 ∧
      (add_note emptyDB c2NoteA).2 = some id1 ∧
      (add_note (add_note emptyDB c2NoteA).1 c2NoteB).2 = some id2 ∧
      (∃ r1 ∈ (add_note (add_note emptyDB c2NoteA).1 c2NoteB).1.notes,
        r1.id = id1 ∧ r1.filename = c2NoteA.filename ∧
          r1.timestamp = c2NoteA.timestamp) ∧
      (∃ r2 ∈ (add_note (add_note emptyDB c2NoteA).1 c2NoteB).1.notes,
        r2.id = id2 ∧ r2.filename = c2NoteB.filename ∧
          r2.timestamp = c2NoteB.timestamp)) :=
  ⟨by decide,
   (claim2_add_note_uniqueness emptyDB c2NoteA c2NoteB).2.2 (by decide)
     (by decide) (by decide) (by decide)⟩

/-- The pre-existing index refuting claim C5: the row with timestamp 60
was inserted before the row with timestamp 50, so the scan's dict maps
`"f.md"` to 50. -/
def c5DB : DBState :=
  { emptyDB with notes := [⟨1, str "f.md", 60, []⟩, ⟨2, str "f.md", 50, []⟩] }

/-- The directory for the claim C5 counterexample: one file whose mtime
matches the index row that the dict lookup does *not* see. -/
def c5Dir : List FileEntry := [⟨str "f.md", 60, []⟩]

/-- Claim C5 is false as stated: on this store the first scan succeeds
(result 0) and counts one update (the `add_note` inside it raises
`OverwriteAttemptError`, which `process_file` swallows, but the file is
still counted), and a second scan with nothing changed again reports one
update, not zero. -/
theorem claim5_counterexample :
    (process_files c5DB c5Dir [str "crap"]).2 = (0, 1) ∧
    (process_files (process_files c5DB c5Dir [str "crap"]).1 c5Dir
        [str "crap"]).2 = (0, 1) := by
  decide

/-- Claim C5, amended: scan idempotence holds provided the directory's
basenames are distinct and the first run triggers no swallowed
`OverwriteAttemptError` — i.e., no scanned file's `(basename, mtime)`
pair is already stored when the file needs updating (in particular this
holds when the index starts empty).  Then the second run, with no file
modified in between, returns success with an updated-count of 0. -/
theorem claim5_scan_idempotent (db : DBState) (files : List FileEntry)
    (ex : List Str)
    (hnd : (files.map (fun f => basename f.name)).Nodup)
    (hno : ∀ f ∈ files, (str ".md").isSuffixOf (basename f.name) = true →
      excluded f ex = false →
      needs_updating (db.notes.map (fun r => (r.filename, r.timestamp))) f
        = true →
      already_stored db (basename f.name) f.mtime = false) :
    (process_files (process_files db files ex).1 files ex).2 = (0, 0) := by
  have hmd_sub :
      (files.filter (fun f => (str ".md").isSuffixOf (basename f.name))).Sublist
        files := List.filter_sublist _
  set md := files.filter (fun f => (str ".md").isSuffixOf (basename f.name))
    with hmd
  have hnd' : (md.map (fun f => basename f.name)).Nodup :=
    List.Nodup.sublist (List.Sublist.map _ hmd_sub) hnd
  set tbl0 : List (Str × Int) := db.notes.map (fun r => (r.filename, r.timestamp))
    with htbl0
  set db1 : DBState := (md.foldl (scanStep ex tbl0) (db, 0)).1 with hdb1
  set tbl1 : List (Str × Int) :=
    db1.notes.map (fun r => (r.filename, r.timestamp)) with htbl1
  have hno' : ∀ g ∈ md, excluded g ex = false →
      needs_updating tbl0 g = true →
      already_stored db (basename g.name) g.mtime = false := by
    intro g hg hge hgn
    have hmem := List.mem_filter.mp hg
    exact hno g hmem.1 hmem.2 hge hgn
  have hnof : ∀ f ∈ md, excluded f ex = true ∨ needs_updating tbl1 f
      = false := by
    intro f hf
    cases hex : excluded f ex with
    | true => exact Or.inl rfl
    | false =>
      refine Or.inr ?_
      cases hn0 : needs_updating tbl0 f with
      | true =>
        obtain ⟨X, r, hrow, hts⟩ :=
          scan_fold_rowsFor_fired ex tbl0 md db 0 f hnd' hf hex hn0 hno'
        exact needs_updating_of_last db1 f X r hrow hts
      | false =>
        have huntouched : ∀ g ∈ md, basename g.name = basename f.name →
            excluded g ex = true ∨ needs_updating tbl0 g = false := by
          intro g hg hEq
          have : g = f :=
            List.inj_on_of_nodup_map hnd' hg hf hEq
          subst this
          exact Or.inr hn0
        have hrows :=
          scan_fold_rowsFor_untouched ex tbl0 md (basename f.name) db 0
            huntouched
        rw [needs_updating_congr db1 db f hrows]
        exact hn0
  have hstop : md.foldl (scanStep ex tbl1) (db1, 0) = (db1, 0) :=
    foldl_scanStep_no_fire ex tbl1 md (db1, 0) hnof
  show (0, (md.foldl (scanStep ex tbl1) (db1, 0)).2) = (0, 0)
  rw [hstop]

/-- Witness for claim C5 at concrete inputs (an empty initial index and
one file). -/
theorem claim5_witness :
    ((([⟨str "f.md", 60, []⟩] : List FileEntry).map
        (fun f => basename f.name)).Nodup ∧
      (∀ f ∈ ([⟨str "f.md", 60, []⟩] : List FileEntry),
        (str ".md").isSuffixOf (basename f.name) = true →
        excluded f [str "crap"] = false →
        needs_updating
          (emptyDB.notes.map (fun r => (r.filename, r.timestamp))) f = true →
        already_stored emptyDB (basename f.name) f.mtime = false)) ∧
    (process_files (process_files emptyDB [⟨str "f.md", 60, []⟩]
        [str "crap"]).1 [⟨str "f.md", 60, []⟩] [str "crap"]).2 = (0, 0) :=
  ⟨⟨by decide, by decide⟩,
   claim5_scan_idempotent emptyDB [⟨str "f.md", 60, []⟩] [str "crap"]
     (by decide) (by decide)⟩

/-- The watcher table for the claim C7 failing input: one entry,
observed at instant 10. -/
def c7Table : MonitoredNoteTable := ⟨[(str "a.md", 10)]⟩

/-- The index for the claim C7 failing input: the entry's `(filename,
last_seen)` pair is already stored. -/
def c7DB : DBState := { emptyDB with notes := [⟨1, str "a.md", 10, []⟩] }

/-- Claim C7 fails on the code (code bug): at the failing input the entry
`("a.md", 10)` is aged (quiet threshold exceeded), passes the validity
filter, and its `(filename, last_seen)` pair is already stored — the
sweep's already-stored branch only logs, so after the sweep iteration the
entry is still in the table, where the spec says it is dropped.  (The
success path does drop, as the second part shows.) -/
theorem claim7_aged_entry_not_removed :
    (c7Table.notes_older_than 1000 5 = [str "a.md"] ∧
      valid_note (str "a.md") = true ∧
      already_stored c7DB (str "a.md") (c7Table.get_timestamp (str "a.md")) =
        true ∧
      (sweepOnce c7Table c7DB (fun _ => none) 1000 5).1 = c7Table) ∧
    ((sweepOnce c7Table emptyDB (fun _ => some (10, [])) 1000 5).1.modified_notes
      = []) := by
  decide

/-- Claim C8 is false as stated: the scan's exclusion logic checks only
the configured stems (and the `*.md` glob), so a file named `"#a.md"` —
which begins with `#` — is stored by `process_files` even with the
default excluded stem configured. -/
theorem claim8_counterexample :
    ((process_files emptyDB [⟨str "#a.md", 5, []⟩] [str "crap"]).1.notes.map
      (fun r => r.filename)) = [str "#a.md"] := by
  decide

/-- Claim C8, amended: the scan never stores a file whose name begins
with a configured excluded stem, nor any file not matching the `*.md`
glob (which covers names ending in `~`); the watcher sweep never stores
a file failing `valid_note`; and `valid_note` rejects names beginning
with `#` or `.#`, names whose first four (lowered) characters are the
excluded stem `crap`, and names ending in `~`.  But the `#`/`.#` checks
live only in the watcher: the scan does store `.md` files whose names
begin with `#` or `.#` (see the counterexample). -/
theorem claim8_excluded_names (db : DBState) (files : List FileEntry)
    (ex : List Str) (table : MonitoredNoteTable)
    (readFile : Str → Option (Int × Str)) (now delta : Int) (name : Str) :
    ((∃ stem ∈ ex, stem.isPrefixOf name = true) ∨
        (str ".md").isSuffixOf name = false →
      rowsForL (process_files db files ex).1.notes name =
        rowsForL db.notes name) ∧
    (valid_note name = false →
      rowsForL (sweepOnce table db readFile now delta).2.1.notes name =
        rowsForL db.notes name) ∧
    ((['#'].isPrefixOf (asciiLower (basename name)) = true ∨
        (['.', '#']).isPrefixOf (asciiLower (basename name)) = true ∨
        (asciiLower (basename name)).take 4 = str "crap" ∨
        (['~']).isSuffixOf (asciiLower (basename name)) = true) →
      valid_note name = false) := by
  refine ⟨?_, ?_, ?_⟩
  · intro h
    have hview : (process_files db files ex).1 =
        ((files.filter
            (fun f => (str ".md").isSuffixOf (basename f.name))).foldl
          (scanStep ex (db.notes.map (fun r => (r.filename, r.timestamp))))
          (db, 0)).1 := rfl
    rw [hview]
    apply scan_fold_rowsFor_untouched
    intro f hf hEq
    have hmem := List.mem_filter.mp hf
    rcases h with ⟨stem, hstem, hpref⟩ | hmd
    · left
      unfold excluded
      rw [List.any_eq_true]
      exact ⟨stem, hstem, by rw [hEq]; exact hpref⟩
    · have : (str ".md").isSuffixOf name = true := hEq ▸ hmem.2
      rw [this] at hmd
      cases hmd
  · intro h
    exact sweep_fold_rowsFor readFile (table.notes_older_than now delta)
      name h (table, db, false)
  · intro h
    unfold valid_note
    dsimp only
    by_cases h1 : (['#'].isPrefixOf (asciiLower (basename name))) = true
    · rw [if_pos h1]
    · rw [if_neg h1]
      by_cases h2 : ((['.', '#']).isPrefixOf (asciiLower (basename name)))
          = true
      · rw [if_pos h2]
      · rw [if_neg h2]
        by_cases h3 : (EXCLUDED_FILENAME_STEMS.contains
            ((asciiLower (basename name)).take 4)) = true
        · rw [if_pos h3]
        · rw [if_neg h3]
          have hmd : (str ".md").isSuffixOf (asciiLower (basename name))
              = false := by
            rcases h with h | h | h | h
            · exact absurd h h1
            · exact absurd h h2
            · refine absurd ?_ h3
              rw [h]
              rfl
            · exact tilde_not_md _ h
          rw [if_neg (by rw [hmd]; exact Bool.false_ne_true)]

/-- Witness for claim C8 at concrete inputs (the file `crap-notes.md`). -/
theorem claim8_witness :
    ((∃ stem ∈ [str "crap"], stem.isPrefixOf (str "crap-notes.md") = true) ∧
      rowsForL (process_files emptyDB [⟨str "crap-notes.md", 5, []⟩]
          [str "crap"]).1.notes (str "crap-notes.md") =
        rowsForL emptyDB.notes (str "crap-notes.md")) ∧
    (valid_note (str "crap-notes.md") = false ∧
      rowsForL (sweepOnce ⟨[]⟩ emptyDB (fun _ => none) 0 0).2.1.notes
          (str "crap-notes.md") =
        rowsForL emptyDB.notes (str "crap-notes.md")) ∧
    ((asciiLower (basename (str "crap-notes.md"))).take 4 = str "crap" ∧
      valid_note (str "crap-notes.md") = false) :=
  ⟨⟨by decide,
    (claim8_excluded_names emptyDB [⟨str "crap-notes.md", 5, []⟩]
        [str "crap"] ⟨[]⟩ (fun _ => none) 0 0 (str "crap-notes.md")).1
      (Or.inl (by decide))⟩,
   ⟨by decide,
    (claim8_excluded_names emptyDB [] [] ⟨[]⟩ (fun _ => none) 0 0
        (str "crap-notes.md")).2.1 (by decide)⟩,
   ⟨by decide,
    (claim8_excluded_names emptyDB [] [] ⟨[]⟩ (fun _ => none) 0 0
        (str "crap-notes.md")).2.2 (Or.inr (Or.inr (Or.inl (by decide))))⟩⟩

/-- The concrete store refuting claim C3: two rows inserted with
ascending timestamps. -/
def exStoreC3 : DBState :=
  { emptyDB with notes := [⟨1, str "a.md", 1, []⟩, ⟨2, str "b.md", 2, []⟩] }

/-- Claim C3 is false as stated: `find_all_notes` has no ORDER BY and no
sort, so on a store whose rows were inserted with ascending timestamps it
returns them oldest-first, not descending by timestamp. -/
theorem claim3_counterexample :
    descByTimestamp (find_all_notes exStoreC3) = false := by
  decide

/-- Claim C3, amended: the multi-row reads of `noted/db.py` return rows
in insertion (rowid) order, with no timestamp sort: `find_all_notes`
returns exactly the stored rows in order, and the two search functions
return order-preserving sublists of the stored rows.  (The descending
sort described by the spec exists only in the other adapter,
`noted/database.py`, whose `find_notes_by_*` functions call
`sort_by_timestamp`.) -/
theorem claim3_read_order (db : DBState) (stem kw : Str) (exact : Bool) :
    ((find_all_notes db).map (fun nt => (nt.filename, nt.timestamp)) =
      db.notes.map (fun r => (r.filename, r.timestamp))) ∧
    ((search_by_file db stem).map (fun nt => (nt.filename, nt.timestamp))).Sublist
      (db.notes.map (fun r => (r.filename, r.timestamp))) ∧
    ((search_by_keyword db kw exact).map
        (fun nt => (nt.filename, nt.timestamp))).Sublist
      (db.notes.map (fun r => (r.filename, r.timestamp))) := by
  refine ⟨?_, ?_, ?_⟩
  · simp only [find_all_notes, List.map_map]
    exact List.map_congr_left (fun a _ => rfl)
  · unfold search_by_file
    rw [List.map_map]
    exact List.Sublist.map
      ((fun nt => (nt.filename, nt.timestamp)) ∘ create_note_from_row)
      (List.filter_sublist _)
  · unfold search_by_keyword
    rw [List.map_map]
    exact List.Sublist.map
      ((fun nt => (nt.filename, nt.timestamp)) ∘ create_note_from_row)
      (List.filter_sublist _)

end Noted
